import Mathlib

/-
Shallow embedding of the HydraKV storage engine (Go), covering:
  * the sharded hash table (hashMap/hashmap.go: Set, Get, Incr, Del,
    checkNewBasket, CheckResize, ResizeChecker, checkIsNumber),
  * the TTL expiration manager (hashMap/ttl_manager.go: addEntry, delEntry),
  * the append-only log (hashMap/aof.go: Data, writeFrame, readFrame) and
    replay (ReplayAOF),
  * the server-level wrappers (server/server.go: Set, SetNX, Incr,
    CheckEntries).

Go strings are byte sequences; we model them as `List Nat` (each element a
byte value).  Machine integers are modelled as Nat/Int with explicit
wrap-around (`% 2^64`) where the Go code can wrap.  The xxhash64 hash is kept
abstract: every statement is universally quantified over the hash function
`H : Bytes → Nat`, of which the code only uses `H key &&& (mask)`.
Concurrency (mutexes, channels' timing) is not modelled; operations are
applied sequentially, which is the setting of the claims.
-/

namespace HydraKV

/-- A Go string / byte slice: a list of byte values. -/
abbrev Bytes := List Nat

/-- The log record type (Go `Data` in aof.go): action, key, value, ttl. -/
structure Data where
  action : Bytes
  key : Bytes
  value : Bytes
  ttl : Int
deriving DecidableEq

/-- The byte string `"set"`. -/
def actSet : Bytes := [115, 101, 116]

/-- The byte string `"del"`. -/
def actDel : Bytes := [100, 101, 108]

/-- The byte string `"incr"`. -/
def actIncr : Bytes := [105, 110, 99, 114]

/-- A table entry (Go `Entry` in entry.go): cached hash, key, value, ttl.
The Go `Next` pointer is represented by the position in the bucket's chain
list. -/
structure Entry where
  hash : Nat
  key : Bytes
  value : Bytes
  ttl : Int
deriving DecidableEq

/-- Go `NewEntry` (entry.go): the chain link `last` becomes consing onto the
chain in the table operations. -/
def NewEntry (ttl : Int) (key value : Bytes) (hash : Nat) : Entry :=
  { hash := hash, key := key, value := value, ttl := ttl }

/-! ### Association-list helpers mirroring Go map operations -/

/-- Go map lookup `m[k]` (with `ok`): first binding of `k`, if any. -/
def alook {β : Type} (m : List (Bytes × β)) (k : Bytes) : Option β :=
  match m with
  | [] => none
  | (a, b) :: rest => if a = k then some b else alook rest k

/-- Go map assignment `m[k] = v`: replace the binding if present, else append. -/
def aput {β : Type} (m : List (Bytes × β)) (k : Bytes) (v : β) : List (Bytes × β) :=
  match m with
  | [] => [(k, v)]
  | (a, b) :: rest => if a = k then (a, v) :: rest else (a, b) :: aput rest k v

/-- Go map `delete(m, k)`: remove the binding of `k`, if present. -/
def adel {β : Type} (m : List (Bytes × β)) (k : Bytes) : List (Bytes × β) :=
  match m with
  | [] => []
  | (a, b) :: rest => if a = k then rest else (a, b) :: adel rest k

/-- Go `map[int64]β` lookup, with Int keys (the expiry seconds). -/
def ilook {β : Type} (m : List (Int × β)) (k : Int) : Option β :=
  match m with
  | [] => none
  | (a, b) :: rest => if a = k then some b else ilook rest k

/-- Go `map[int64]β` assignment, with Int keys. -/
def iput {β : Type} (m : List (Int × β)) (k : Int) (v : β) : List (Int × β) :=
  match m with
  | [] => [(k, v)]
  | (a, b) :: rest => if a = k then (a, v) :: rest else (a, b) :: iput rest k v

/-- Go `map[int64]β` delete, with Int keys. -/
def idel {β : Type} (m : List (Int × β)) (k : Int) : List (Int × β) :=
  match m with
  | [] => []
  | (a, b) :: rest => if a = k then rest else (a, b) :: idel rest k

/-! ### TTL manager (hashMap/ttl_manager.go) -/

/-- One expiration shard (Go `TTLEntryManager.list`, a
`map[int64]map[string]*Entry`): expiry second ↦ (key ↦ entry). -/
abbrev Shard := List (Int × List (Bytes × Entry))

/-- Go `TTLManager`: the shard list, the shard count (a power of two) and the
`lastDeleted` watermark. -/
structure TTLManager where
  numShards : Nat
  shards : List Shard
  lastDeleted : Int
deriving DecidableEq

/-- Go `NewTTLManager`: `numShards` empty shards, `lastDeleted` initialised to
the wall clock at construction (`t0`). -/
def NewTTLManager (numShards : Nat) (t0 : Int) : TTLManager :=
  { numShards := numShards, shards := List.replicate numShards [], lastDeleted := t0 }

/-- Go `TTLManager.addEntry` at wall-clock second `now`:
return if `ttl ≤ 0`; otherwise compute `future = now + ttl`; drop the entry
if `future ≤ lastDeleted`; otherwise record the membership in the bucket
keyed `future` of shard `hash &&& (numShards-1)`. -/
def addEntry (now : Int) (m : TTLManager) (e : Entry) : TTLManager :=
  if e.ttl ≤ 0 then m
  else
    let i := e.hash &&& (m.numShards - 1)
    let future := now + e.ttl
    if future ≤ m.lastDeleted then m
    else
      let sh := m.shards.getD i []
      let bucket := (ilook sh future).getD []
      { m with shards := m.shards.set i (iput sh future (aput bucket e.key e)) }

/-- Go `TTLManager.delEntry`: in shard `hash &&& (numShards-1)`, look up the
bucket keyed by the `ttl` argument; if present, delete the key from it and
drop the bucket when it becomes empty. -/
def delEntry (m : TTLManager) (e : Entry) (ttl : Int) : TTLManager :=
  let i := e.hash &&& (m.numShards - 1)
  let sh := m.shards.getD i []
  match ilook sh ttl with
  | none => m
  | some bucket =>
      let bucket' := adel bucket e.key
      let sh' := if bucket' = [] then idel sh ttl else iput sh ttl bucket'
      { m with shards := m.shards.set i sh' }

/-- Observable: does the expiration manager hold a membership for `k` in a
bucket keyed `sec` (in any shard)? -/
def ttlMember (m : TTLManager) (sec : Int) (k : Bytes) : Bool :=
  m.shards.any fun sh =>
    match ilook sh sec with
    | some bucket => (alook bucket k).isSome
    | none => false

/-! ### Hash table core state (hashMap/hashmap.go) -/

/-- `2^64`, the modulus of the Go `uint64` entry counter. -/
def U64 : Nat := 2 ^ 64

/-- The in-memory part of a Go `HashMap` that the table operations read and
write: the bucket array (`table`, each bucket its chain of entries), the
`Entries` counter (`uint64`), the `deletedEntries` counter, and the TTL
manager.  `basketNum` is `table.length`. -/
structure Core where
  table : List (List Entry)
  entries : Nat
  deletedEntries : Nat
  ttlm : TTLManager
deriving DecidableEq

/-- A Go `HashMap` together with its AOF state: the core, the sequence of
records enqueued to the AOF channel (in order), and the `reset` flag (true
during replay, when writes bypass the log). -/
structure HashMap where
  core : Core
  aof : List Data
  reset : Bool
deriving DecidableEq

/-- Go `getIndex`: the hash of the key and its bucket index
`hash &&& (basketNum - 1)`. -/
def getIndex (H : Bytes → Nat) (basketNum : Nat) (key : Bytes) : Nat × Nat :=
  let h := H key
  (h &&& (basketNum - 1), h)

/-- The body of Go `Get`'s chain scan: first entry with the matching key. -/
def getChain (key : Bytes) : List Entry → Bool × Bytes
  | [] => (false, [])
  | e :: rest => if e.key = key then (true, e.value) else getChain key rest

/-- Go `Get` on the core state: `(found, value)`. -/
def Get (H : Bytes → Nat) (c : Core) (key : Bytes) : Bool × Bytes :=
  let i := (getIndex H c.table.length key).1
  getChain key (c.table.getD i [])

/-- The body of Go `Set`'s chain scan: update the first entry with a matching
key (removing its old TTL membership if it had one, installing the new ttl),
or report `none` when the key is absent from the chain. -/
def setChain (now ttl : Int) (key value : Bytes) (m : TTLManager) :
    List Entry → Option (List Entry × TTLManager)
  | [] => none
  | e :: rest =>
      if e.key = key then
        let m1 := if e.ttl ≠ 0 then delEntry m e e.ttl else m
        let e' := { e with value := value, ttl := ttl }
        some (e' :: rest, addEntry now m1 e')
      else
        match setChain now ttl key value m rest with
        | none => none
        | some (rest', m') => some (e :: rest', m')

/-- Go `Set` on the core state at wall-clock `now`: upsert, always `true`.
A fresh entry is consed onto its bucket's chain and counted. -/
def SetCore (H : Bytes → Nat) (now ttl : Int) (key value : Bytes) (c : Core) :
    Bool × Core :=
  let (i, h) := getIndex H c.table.length key
  let chain := c.table.getD i []
  match setChain now ttl key value c.ttlm chain with
  | some (chain', m') => (true, { c with table := c.table.set i chain', ttlm := m' })
  | none =>
      let e := NewEntry ttl key value h
      (true, { c with table := c.table.set i (e :: chain),
                      ttlm := addEntry now c.ttlm e,
                      entries := (c.entries + 1) % U64 })

/-- Go `Set` (hashmap.go): in live mode (`reset = false`) first enqueue the
log record `{Action:"set", Key, Value, Ttl}`, then mutate the table. -/
def Set (H : Bytes → Nat) (now ttl : Int) (key value : Bytes) (s : HashMap) :
    Bool × HashMap :=
  let s1 := if s.reset then s
            else { s with aof := s.aof ++ [⟨actSet, key, value, ttl⟩] }
  let (b, c') := SetCore H now ttl key value s1.core
  (b, { s1 with core := c' })

/-- Go `checkIsNumber` / `strconv.ParseInt(s, 10, 64)`: all-digit run after an
optional sign, value in the signed 64-bit range. -/
def digitsValAux : Bytes → Nat → Option Nat
  | [], acc => some acc
  | c :: rest, acc =>
      if 48 ≤ c ∧ c ≤ 57 then digitsValAux rest (acc * 10 + (c - 48)) else none

/-- The value of a non-empty all-decimal-digit byte string; `none` otherwise. -/
def digitsVal : Bytes → Option Nat
  | [] => none
  | l => digitsValAux l 0

/-- Go `strconv.ParseInt(s, 10, 64)` as used by `checkIsNumber`: `some`
exactly on strings matching an optional `+`/`-` sign followed by one or more
decimal digits whose value fits in `int64`. -/
def parseInt64 (s : Bytes) : Option Int :=
  match s with
  | [] => none
  | c :: rest =>
      if c = 43 then
        match digitsVal rest with
        | none => none
        | some m => if m ≤ 2 ^ 63 - 1 then some (m : Int) else none
      else if c = 45 then
        match digitsVal rest with
        | none => none
        | some m => if m ≤ 2 ^ 63 then some (-(m : Int)) else none
      else
        match digitsVal s with
        | none => none
        | some m => if m ≤ 2 ^ 63 - 1 then some (m : Int) else none

/-- Wrap an integer into the signed 64-bit range, as Go `int64` addition does. -/
def wrapInt64 (x : Int) : Int := (x + 2 ^ 63) % (2 ^ 64 : Int) - 2 ^ 63

/-- Decimal digits of a natural number (fuel-driven; 65 digits suffice for any
64-bit quantity, and `FormatInt` is only applied to `int64` values). -/
def natDigitsAux : Nat → Nat → Bytes
  | 0, _ => []
  | fuel + 1, n => if n = 0 then [] else natDigitsAux fuel (n / 10) ++ [48 + n % 10]

/-- Decimal representation of a natural number. -/
def natDigits (n : Nat) : Bytes := if n = 0 then [48] else natDigitsAux 65 n

/-- Go `strconv.FormatInt(x, 10)` for an `int64` value. -/
def formatInt64 (x : Int) : Bytes :=
  if x < 0 then 45 :: natDigits (-x).toNat else natDigits x.toNat

/-- The body of Go `Incr`'s chain scan: on the first entry with a matching
key, parse the stored value then the amount (`checkIsNumber`); on success
store the formatted wrapped sum and install the new ttl, on failure leave the
entry untouched and report `false`.  `none` when the key is absent. -/
def incrChain (now ttl : Int) (key amount : Bytes) (m : TTLManager) :
    List Entry → Option (Bool × List Entry × TTLManager)
  | [] => none
  | e :: rest =>
      if e.key = key then
        match parseInt64 e.value with
        | none => some (false, e :: rest, m)
        | some v =>
            match parseInt64 amount with
            | none => some (false, e :: rest, m)
            | some a =>
                let m1 := if e.ttl ≠ 0 then delEntry m e e.ttl else m
                let e' := { e with value := formatInt64 (wrapInt64 (v + a)), ttl := ttl }
                some (true, e' :: rest, addEntry now m1 e')
      else
        match incrChain now ttl key amount m rest with
        | none => none
        | some (b, rest', m') => some (b, e :: rest', m')

/-- Go `Incr` on the core state: increment an existing numeric value, or
insert the amount verbatim when the key is absent. -/
def IncrCore (H : Bytes → Nat) (now ttl : Int) (key amount : Bytes) (c : Core) :
    Bool × Core :=
  let (i, h) := getIndex H c.table.length key
  let chain := c.table.getD i []
  match incrChain now ttl key amount c.ttlm chain with
  | some (b, chain', m') => (b, { c with table := c.table.set i chain', ttlm := m' })
  | none =>
      let e := NewEntry ttl key amount h
      (true, { c with table := c.table.set i (e :: chain),
                      ttlm := addEntry now c.ttlm e,
                      entries := (c.entries + 1) % U64 })

/-- Go `Incr` (hashmap.go): in live mode first enqueue the log record
`Data{Action:"incr", Key: key, Value: amount}` — note its `Ttl` field is the
zero value `0`, not the `ttl` argument — then mutate the table. -/
def Incr (H : Bytes → Nat) (now ttl : Int) (key amount : Bytes) (s : HashMap) :
    Bool × HashMap :=
  let s1 := if s.reset then s
            else { s with aof := s.aof ++ [⟨actIncr, key, amount, 0⟩] }
  let (b, c') := IncrCore H now ttl key amount s1.core
  (b, { s1 with core := c' })

/-- The body of Go `Del`'s chain scan: unlink the first entry with a matching
key, returning it and the shortened chain; `none` when absent. -/
def delChain (key : Bytes) : List Entry → Option (List Entry × Entry)
  | [] => none
  | e :: rest =>
      if e.key = key then some (rest, e)
      else
        match delChain key rest with
        | none => none
        | some (rest', d) => some (e :: rest', d)

/-- Go `Del` on the core state: remove the entry (after removing its TTL
membership via `delEntry(item, item.Ttl)`), decrement the `uint64` entry
counter (`Entries.Add(^uint64(0))`) and bump `deletedEntries`. -/
def DelCore (H : Bytes → Nat) (key : Bytes) (c : Core) : Bool × Core :=
  let i := (getIndex H c.table.length key).1
  let chain := c.table.getD i []
  match delChain key chain with
  | none => (false, c)
  | some (chain', e) =>
      (true, { c with table := c.table.set i chain',
                      ttlm := delEntry c.ttlm e e.ttl,
                      entries := (c.entries + (U64 - 1)) % U64,
                      deletedEntries := c.deletedEntries + 1 })

/-- Go `Del` (hashmap.go): in live mode first enqueue the log record
`Data{Action:"del", Key: key}` (even when the key turns out to be absent),
then mutate the table. -/
def Del (H : Bytes → Nat) (key : Bytes) (s : HashMap) : Bool × HashMap :=
  let s1 := if s.reset then s
            else { s with aof := s.aof ++ [⟨actDel, key, [], 0⟩] }
  let (b, c') := DelCore H key s1.core
  (b, { s1 with core := c' })

/-- Go `NewHashMap` for a name with no existing AOF file: `DefaultBasketSize`
(2048) empty buckets, zero counters, a fresh TTL manager whose `lastDeleted`
is the construction time `t0`, and `reset = false` once replay finished. -/
def freshCore (numShards : Nat) (t0 : Int) : Core :=
  { table := List.replicate 2048 []
    entries := 0
    deletedEntries := 0
    ttlm := NewTTLManager numShards t0 }

/-- A freshly created database in live mode with an empty log. -/
def freshMap (numShards : Nat) (t0 : Int) : HashMap :=
  { core := freshCore numShards t0, aof := [], reset := false }

/-! ### Replay (ReplayAOF's switch) and server wrappers -/

/-- One iteration of Go `ReplayAOF`'s switch at replay wall-clock `now`:
`"set"` applies `Set`, `"del"` applies `Del`, `"incr"` applies `Incr`
(with the record's `Ttl`); unknown actions are ignored.  During replay
`reset = true`, so the operations do not re-enqueue log records; we therefore
apply them to the core directly. -/
def replayStep (H : Bytes → Nat) (now : Int) (c : Core) (d : Data) : Core :=
  if d.action = actSet then (SetCore H now d.ttl d.key d.value c).2
  else if d.action = actDel then (DelCore H d.key c).2
  else if d.action = actIncr then (IncrCore H now d.ttl d.key d.value c).2
  else c

/-- Replaying a list of log records in order onto a core state. -/
def replayRun (H : Bytes → Nat) (now : Int) (c : Core) (ds : List Data) : Core :=
  ds.foldl (replayStep H now) c

/-- Go `uint64` → `int64` reinterpretation, as in `GetEntries`
(`int64(hm.Entries.Load())`). -/
def toInt64 (n : Nat) : Int := ((n : Int) % (2 ^ 64 : Int) + 2 ^ 63) % (2 ^ 64 : Int) - 2 ^ 63

/-- Go `Server.CheckEntries` for an existing database: the entry count
(as `int64`) is strictly below the configured maximum. -/
def CheckEntries (maxEntries : Int) (c : Core) : Bool :=
  toInt64 c.entries < maxEntries

/-- Go `Server.Set` for an existing database: reject when the cap check
fails, otherwise delegate to the table's `Set`. -/
def SrvSet (maxEntries : Int) (H : Bytes → Nat) (now ttl : Int) (key value : Bytes)
    (s : HashMap) : Bool × HashMap :=
  if CheckEntries maxEntries s.core then Set H now ttl key value s else (false, s)

/-- Go `Server.SetNX` for an existing database: reject when the cap check
fails; otherwise `Get` then, only if absent, `Set`. -/
def SetNX (maxEntries : Int) (H : Bytes → Nat) (now ttl : Int) (key value : Bytes)
    (s : HashMap) : Bool × HashMap :=
  if CheckEntries maxEntries s.core then
    if (Get H s.core key).1 then (false, s) else Set H now ttl key value s
  else (false, s)

/-- Go `Server.Incr` for an existing database: no cap check; delegates to the
table's `Incr` with ttl `0`. -/
def SrvIncr (H : Bytes → Nat) (now : Int) (key amount : Bytes) (s : HashMap) :
    Bool × HashMap :=
  Incr H now 0 key amount s

/-! ### Resize (checkNewBasket, CheckResize) and the compaction tick -/

/-- The relink loop body of Go `checkNewBasket` for one old bucket's chain:
each entry is consed onto new bucket `hash &&& (newSize - 1)`, in chain
order. -/
def relinkChain (mask : Nat) : List (List Entry) → List Entry → List (List Entry)
  | t, [] => t
  | t, e :: rest =>
      relinkChain mask
        (t.set (e.hash &&& mask) (e :: t.getD (e.hash &&& mask) [])) rest

/-- Go `checkNewBasket`: allocate `2 * len(table)` empty buckets and relink
every entry of every old bucket to `hash &&& (newSize - 1)`. -/
def checkNewBasket (c : Core) : Core :=
  let newSize := c.table.length * 2
  { c with table := c.table.foldl (relinkChain (newSize - 1))
                      (List.replicate newSize []) }

/-- Go `CheckResize`: double the table exactly when
`float64(entries) / float64(len(table)) > 0.75`.  For every configuration the
engine can reach (table length a power of two `< 2^31`, so the boundary case
`entries = 3·len/4` is exactly representable in `float64`), the Go
floating-point comparison coincides with the exact rational comparison
`entries / len > 3/4`, i.e. `3 * len < 4 * entries`. -/
def CheckResize (c : Core) : Core :=
  if 3 * c.table.length < 4 * c.entries then checkNewBasket c else c

/-- The 60-second ticker branch of Go `ResizeChecker`: signal AOF compaction
and reset the deleted-entries counter exactly when
`(entries > 2 || deleted > 2) && deleted >= int64(entries)/2`.
Returns (signalled?, new core).  Go's `int64` division truncates
(`Int.tdiv`). -/
def compactTick (c : Core) : Bool × Core :=
  if (2 < toInt64 c.entries ∨ 2 < (c.deletedEntries : Int)) ∧
      Int.tdiv (toInt64 c.entries) 2 ≤ (c.deletedEntries : Int) then
    (true, { c with deletedEntries := 0 })
  else (false, c)

/-! ### AOF frames (writeFrame / readFrame in aof.go) -/

/-- Big-endian bytes of a `uint32` (Go `binary.Write(w, BigEndian, uint32 n)`). -/
def be32 (n : Nat) : Bytes :=
  [n / 2 ^ 24 % 256, n / 2 ^ 16 % 256, n / 2 ^ 8 % 256, n % 256]

/-- Big-endian bytes of a `uint64`. -/
def be64 (n : Nat) : Bytes :=
  [n / 2 ^ 56 % 256, n / 2 ^ 48 % 256, n / 2 ^ 40 % 256, n / 2 ^ 32 % 256,
   n / 2 ^ 24 % 256, n / 2 ^ 16 % 256, n / 2 ^ 8 % 256, n % 256]

/-- Big-endian value of a byte string (Go `binary.BigEndian.Uint32/Uint64`). -/
def beVal (b : Bytes) : Nat := b.foldl (fun acc x => acc * 256 + x) 0

/-- The two's-complement `int64` bytes of a ttl
(Go `binary.Write(w, BigEndian, int64 ttl)`). -/
def encTtl (t : Int) : Bytes := be64 (t % (2 ^ 64 : Int)).toNat

/-- A length-prefixed field of a frame: `uint32(len(f))` big-endian, then the
raw bytes of `f`. -/
def encField (f : Bytes) : Bytes := be32 (f.length % 2 ^ 32) ++ f

/-- Go `writeFrame`: action, key and value as length-prefixed fields, then
the ttl as a big-endian signed 64-bit integer. -/
def writeFrame (d : Data) : Bytes :=
  encField d.action ++ (encField d.key ++ (encField d.value ++ encTtl d.ttl))

/-- The error results of Go `io.ReadFull`: `io.EOF` when the stream is empty,
`io.ErrUnexpectedEOF` when it ends mid-read. -/
inductive ReadErr
  | eof
  | unexpectedEof
deriving DecidableEq

/-- The result of a read from a byte stream: a value and the remaining bytes,
or an error. -/
inductive RRes (α : Type) where
  | ok (val : α) (rest : Bytes)
  | err (e : ReadErr)
deriving DecidableEq

/-- Go `io.ReadFull(r, buf)` with `len(buf) = n`: all `n` bytes, or `EOF` on
an empty stream, or `ErrUnexpectedEOF` on a short one. -/
def readN (n : Nat) (s : Bytes) : RRes Bytes :=
  if n ≤ s.length then .ok (s.take n) (s.drop n)
  else if s.isEmpty then .err .eof
  else .err .unexpectedEof

/-- One length-prefixed field of Go `readFrame`: 4 size bytes, then that many
content bytes (no read is issued when the size is 0). -/
def readField (s : Bytes) : RRes Bytes :=
  match readN 4 s with
  | .err e => .err e
  | .ok sz s1 => readN (beVal sz) s1

/-- Go `readFrame`: action, key and value fields, then 8 ttl bytes decoded as
a big-endian signed 64-bit integer. -/
def readFrame (s : Bytes) : RRes Data :=
  match readField s with
  | .err e => .err e
  | .ok a s1 =>
      match readField s1 with
      | .err e => .err e
      | .ok k s2 =>
          match readField s2 with
          | .err e => .err e
          | .ok v s3 =>
              match readN 8 s3 with
              | .err e => .err e
              | .ok tb s4 => .ok ⟨a, k, v, toInt64 (beVal tb)⟩ s4

theorem readN_ok_length {n : Nat} {s v rest : Bytes} (h : readN n s = .ok v rest) :
    rest.length + n = s.length := by
  unfold readN at h
  split at h
  · next hle =>
    cases h
    simp only [List.length_drop]
    omega
  · split at h <;> cases h

theorem readField_ok_length {s f rest : Bytes} (h : readField s = .ok f rest) :
    rest.length + 4 ≤ s.length := by
  unfold readField at h
  cases h4 : readN 4 s with
  | err e => rw [h4] at h; cases h
  | ok sz s1 =>
      rw [h4] at h
      have h1 := readN_ok_length h4
      have h2 := readN_ok_length h
      omega

theorem readFrame_ok_length {s : Bytes} {d : Data} {rest : Bytes}
    (h : readFrame s = .ok d rest) : rest.length < s.length := by
  unfold readFrame at h
  split at h
  · cases h
  · next a s1 ha =>
    split at h
    · cases h
    · next k s2 hk =>
      split at h
      · cases h
      · next v s3 hv =>
        split at h
        · cases h
        · next tb s4 ht =>
          cases h
          have l1 := readField_ok_length ha
          have l2 := readField_ok_length hk
          have l3 := readField_ok_length hv
          have l4 := readN_ok_length ht
          omega

/-- Go `ReplayAOF`'s loop over the raw log bytes: read frames until `EOF` or
`ErrUnexpectedEOF` (a truncated trailing frame), applying each decoded record
via the replay switch. -/
def replayBytes (H : Bytes → Nat) (now : Int) (c : Core) (s : Bytes) : Core :=
  match h : readFrame s with
  | .err _ => c
  | .ok d rest => replayBytes H now (replayStep H now c d) rest
termination_by s.length
decreasing_by exact readFrame_ok_length h

/-- A whole log: frames concatenated end-to-end. -/
def encodeLog (ds : List Data) : Bytes := (ds.map writeFrame).flatten

/-! ### Mutation sequences (claim C1) -/

/-- A client mutation, with its ttl argument where the API takes one.
`setIfAbsent` is the server's `SetNX` logic (`Get`, then `Set` only when
absent). -/
inductive Op
  | set (k v : Bytes) (ttl : Int)
  | setIfAbsent (k v : Bytes) (ttl : Int)
  | incr (k a : Bytes) (ttl : Int)
  | del (k : Bytes)
deriving DecidableEq

/-- The ttl argument of a mutation (0 for `del`, which takes none). -/
def Op.ttlOf : Op → Int
  | .set _ _ ttl => ttl
  | .setIfAbsent _ _ ttl => ttl
  | .incr _ _ ttl => ttl
  | .del _ => 0

/-- Apply one mutation (paired with the wall-clock second at which it runs)
to a live database. -/
def liveApply (H : Bytes → Nat) (s : HashMap) : Op × Int → HashMap
  | (.set k v ttl, now) => (Set H now ttl k v s).2
  | (.setIfAbsent k v ttl, now) =>
      if (Get H s.core k).1 then s else (Set H now ttl k v s).2
  | (.incr k a ttl, now) => (Incr H now ttl k a s).2
  | (.del k, _) => (Del H k s).2

/-- Apply a sequence of mutations to a live database. -/
def liveRun (H : Bytes → Nat) (s : HashMap) (ops : List (Op × Int)) : HashMap :=
  ops.foldl (liveApply H) s

/-! ### Reachable states (claim C6) -/

/-- One step of the engine while the database is open: a client mutation, a
resize check, or a 60-second scheduler tick. -/
inductive EngineStep (H : Bytes → Nat) : HashMap → HashMap → Prop
  | set (now ttl : Int) (k v : Bytes) (s : HashMap) :
      EngineStep H s (Set H now ttl k v s).2
  | incr (now ttl : Int) (k a : Bytes) (s : HashMap) :
      EngineStep H s (Incr H now ttl k a s).2
  | del (k : Bytes) (s : HashMap) :
      EngineStep H s (Del H k s).2
  | resize (s : HashMap) :
      EngineStep H s { s with core := CheckResize s.core }
  | tick (s : HashMap) :
      EngineStep H s { s with core := (compactTick s.core).2 }

/-- States reachable from a freshly created database while it stays open. -/
def Reachable (H : Bytes → Nat) (numShards : Nat) (t0 : Int) (s : HashMap) : Prop :=
  Relation.ReflTransGen (EngineStep H) (freshMap numShards t0) s

/-! ### List helper lemmas -/

theorem getD_set_self {α : Type} (l : List α) (i : Nat) (x d : α) (h : i < l.length) :
    (l.set i x).getD i d = x := by
  simp [List.getD, List.getElem?_set, h]

theorem getD_set_ne {α : Type} (l : List α) (i j : Nat) (x d : α) (h : i ≠ j) :
    (l.set i x).getD j d = l.getD j d := by
  simp [List.getD, List.getElem?_set, h]

theorem getD_replicate_of_lt {α : Type} (n i : Nat) (a d : α) (h : i < n) :
    (List.replicate n a).getD i d = a := by
  simp [List.getD, List.getElem?_replicate, h]

theorem getD_replicate_self {α : Type} (n i : Nat) (a : α) :
    (List.replicate n a).getD i a = a := by
  rcases Nat.lt_or_ge i n with h | h
  · exact getD_replicate_of_lt n i a a h
  · have hlen : (List.replicate n a).length ≤ i := by simpa using h
    simp [List.getD, List.getElem?_eq_none hlen]

theorem mask_lt_two_pow (h : Nat) (b : Nat) : h &&& (2 ^ b - 1) < 2 ^ b := by
  have h1 : h &&& (2 ^ b - 1) ≤ 2 ^ b - 1 := Nat.and_le_right
  have h2 : 0 < 2 ^ b := Nat.pos_pow_of_pos _ (by norm_num)
  omega

theorem mask_lt_of_pow (h n b : Nat) (hn : n = 2 ^ b) : h &&& (n - 1) < n := by
  subst hn; exact mask_lt_two_pow h b

/-! ### Chain-level lemmas -/

theorem setChain_getChain (now ttl : Int) (k v : Bytes) (m : TTLManager) :
    ∀ (ch ch' : List Entry) (m' : TTLManager),
      setChain now ttl k v m ch = some (ch', m') → getChain k ch' = (true, v) := by
  intro ch
  induction ch with
  | nil => intro ch' m' h; simp [setChain] at h
  | cons e rest ih =>
      intro ch' m' h
      by_cases he : e.key = k
      · simp only [setChain, if_pos he] at h
        cases h
        simp [getChain, he]
      · simp only [setChain, if_neg he] at h
        cases hrec : setChain now ttl k v m rest with
        | none => rw [hrec] at h; cases h
        | some p =>
            rw [hrec] at h
            cases h
            simp only [getChain, if_neg he]
            exact ih p.1 p.2 (by rw [hrec])

theorem setChain_none (now ttl : Int) (k v : Bytes) (m : TTLManager) :
    ∀ ch : List Entry, setChain now ttl k v m ch = none ↔ (getChain k ch).1 = false := by
  intro ch
  induction ch with
  | nil => simp [setChain, getChain]
  | cons e rest ih =>
      by_cases he : e.key = k
      · constructor
        · intro h; exfalso; simp [setChain, he] at h
        · intro h; exfalso; simp [getChain, he] at h
      · simp only [setChain, if_neg he, getChain]
        cases hrec : setChain now ttl k v m rest with
        | none =>
            rw [hrec] at ih
            simp only [true_iff] at ih
            simp [ih]
        | some p =>
            rw [hrec] at ih
            simp at ih
            simp [ih]

/-- After `Set`, a `Get` of the same key sees the written value (any core
whose bucket array length is a power of two). -/
theorem Get_SetCore_same (H : Bytes → Nat) (now ttl : Int) (k v : Bytes) (c : Core)
    (b : Nat) (hlen : c.table.length = 2 ^ b) :
    Get H (SetCore H now ttl k v c).2 k = (true, v) := by
  have hi : H k &&& (c.table.length - 1) < c.table.length :=
    mask_lt_of_pow _ _ _ hlen
  unfold SetCore getIndex
  cases hsc : setChain now ttl k v c.ttlm (c.table.getD (H k &&& (c.table.length - 1)) []) with
  | some p =>
      obtain ⟨ch', m'⟩ := p
      simp only [hsc]
      unfold Get getIndex
      simp only [List.length_set]
      rw [getD_set_self _ _ _ _ hi]
      exact setChain_getChain now ttl k v c.ttlm _ ch' m' hsc
  | none =>
      simp only [hsc]
      unfold Get getIndex
      simp only [List.length_set]
      rw [getD_set_self _ _ _ _ hi]
      simp [getChain, NewEntry]

theorem Set_core_eq (H : Bytes → Nat) (now ttl : Int) (k v : Bytes) (s : HashMap) :
    (Set H now ttl k v s).2.core = (SetCore H now ttl k v s.core).2 := by
  unfold Set
  by_cases hr : s.reset <;> simp [hr]

theorem Set_fst (H : Bytes → Nat) (now ttl : Int) (k v : Bytes) (s : HashMap) :
    (Set H now ttl k v s).1 = (SetCore H now ttl k v s.core).1 := by
  unfold Set
  by_cases hr : s.reset <;> simp [hr]

theorem SetCore_fst (H : Bytes → Nat) (now ttl : Int) (k v : Bytes) (c : Core) :
    (SetCore H now ttl k v c).1 = true := by
  unfold SetCore getIndex
  cases hsc : setChain now ttl k v c.ttlm
      (c.table.getD (H k &&& (c.table.length - 1)) []) with
  | some p => obtain ⟨ch', m'⟩ := p; simp only [hsc]
  | none => simp only [hsc]

theorem SetCore_table_length (H : Bytes → Nat) (now ttl : Int) (k v : Bytes) (c : Core) :
    (SetCore H now ttl k v c).2.table.length = c.table.length := by
  unfold SetCore getIndex
  cases hsc : setChain now ttl k v c.ttlm
      (c.table.getD (H k &&& (c.table.length - 1)) []) with
  | some p => obtain ⟨ch', m'⟩ := p; simp only [hsc]; exact List.length_set ..
  | none => simp only [hsc]; exact List.length_set ..

theorem fresh_table_length (S : Nat) (t0 : Int) :
    (freshCore S t0).table.length = 2 ^ 11 := by
  show (List.replicate 2048 ([] : List Entry)).length = 2 ^ 11
  rw [List.length_replicate]
  norm_num

/-- The chain of the bucket that `Get`/`Set`/`Incr`/`Del` consult for `k`. -/
def bucketChain (H : Bytes → Nat) (c : Core) (k : Bytes) : List Entry :=
  c.table.getD ((getIndex H c.table.length k).1) []

theorem Get_eq_bucket (H : Bytes → Nat) (c : Core) (k : Bytes) :
    Get H c k = getChain k (bucketChain H c k) := rfl

theorem bucket_fresh (H : Bytes → Nat) (S : Nat) (t0 : Int) (k : Bytes) :
    bucketChain H (freshCore S t0) k = [] := by
  unfold bucketChain freshCore
  exact getD_replicate_self _ _ _

theorem SetCore_bucket (H : Bytes → Nat) (now ttl : Int) (k v : Bytes) (c : Core)
    (b : Nat) (hlen : c.table.length = 2 ^ b) :
    bucketChain H (SetCore H now ttl k v c).2 k =
      (match setChain now ttl k v c.ttlm (bucketChain H c k) with
        | some p => p.1
        | none => NewEntry ttl k v (H k) :: bucketChain H c k) := by
  have hi : H k &&& (c.table.length - 1) < c.table.length :=
    mask_lt_of_pow _ _ _ hlen
  unfold SetCore bucketChain getIndex
  cases hsc : setChain now ttl k v c.ttlm (c.table.getD (H k &&& (c.table.length - 1)) []) with
  | some p =>
      obtain ⟨ch', m'⟩ := p
      simp only [hsc]
      simp only [List.length_set]
      exact getD_set_self _ _ _ _ hi
  | none =>
      simp only [hsc]
      simp only [List.length_set]
      exact getD_set_self _ _ _ _ hi

theorem DelCore_bucket (H : Bytes → Nat) (k : Bytes) (c : Core)
    (b : Nat) (hlen : c.table.length = 2 ^ b) :
    bucketChain H (DelCore H k c).2 k =
      (match delChain k (bucketChain H c k) with
        | some p => p.1
        | none => bucketChain H c k) := by
  have hi : H k &&& (c.table.length - 1) < c.table.length :=
    mask_lt_of_pow _ _ _ hlen
  unfold DelCore bucketChain getIndex
  cases hdc : delChain k (c.table.getD (H k &&& (c.table.length - 1)) []) with
  | some p =>
      obtain ⟨ch', e⟩ := p
      simp only [hdc]
      simp only [List.length_set]
      exact getD_set_self _ _ _ _ hi
  | none => simp only [hdc]

/-- The ttl-manager and counter effects of a `Set` that inserts a new key. -/
theorem SetCore_absent_parts (H : Bytes → Nat) (now ttl : Int) (k v : Bytes) (c : Core)
    (h : setChain now ttl k v c.ttlm (bucketChain H c k) = none) :
    (SetCore H now ttl k v c).2.ttlm = addEntry now c.ttlm (NewEntry ttl k v (H k)) ∧
    (SetCore H now ttl k v c).2.entries = (c.entries + 1) % U64 := by
  unfold bucketChain getIndex at h
  unfold SetCore getIndex
  simp only [h]
  exact ⟨by trivial, by trivial⟩

/-- The result, ttl-manager and counter effects of a `Del` that found its key. -/
theorem DelCore_chain_some (H : Bytes → Nat) (k : Bytes) (c : Core)
    (ch' : List Entry) (e : Entry)
    (h : delChain k (bucketChain H c k) = some (ch', e)) :
    (DelCore H k c).1 = true ∧
    (DelCore H k c).2.ttlm = delEntry c.ttlm e e.ttl ∧
    (DelCore H k c).2.entries = (c.entries + (U64 - 1)) % U64 := by
  unfold bucketChain getIndex at h
  unfold DelCore getIndex
  simp only [h]
  exact ⟨by trivial, by trivial, by trivial⟩

theorem Del_core_eq (H : Bytes → Nat) (k : Bytes) (s : HashMap) :
    (Del H k s).2.core = (DelCore H k s.core).2 := by
  unfold Del
  by_cases hr : s.reset <;> simp [hr]

theorem DelCore_table_length (H : Bytes → Nat) (k : Bytes) (c : Core) :
    (DelCore H k c).2.table.length = c.table.length := by
  unfold DelCore getIndex
  cases hdc : delChain k (c.table.getD (H k &&& (c.table.length - 1)) []) with
  | some p => obtain ⟨ch', e⟩ := p; simp only [hdc]; exact List.length_set ..
  | none => simp only [hdc]

theorem Get_fresh (H : Bytes → Nat) (S : Nat) (t0 : Int) (k : Bytes) :
    Get H (freshCore S t0) k = (false, []) := by
  rw [Get_eq_bucket, bucket_fresh]
  rfl

theorem toInt64_zero : toInt64 0 = 0 := by decide

theorem toInt64_one : toInt64 1 = 1 := by decide

theorem SetNX_cap (maxE : Int) (H : Bytes → Nat) (now ttl : Int) (k v : Bytes)
    (s : HashMap) (hce : CheckEntries maxE s.core = false) :
    SetNX maxE H now ttl k v s = (false, s) := by
  unfold SetNX
  simp [hce]

theorem SetNX_found (maxE : Int) (H : Bytes → Nat) (now ttl : Int) (k v : Bytes)
    (s : HashMap) (hce : CheckEntries maxE s.core = true)
    (hget : (Get H s.core k).1 = true) :
    SetNX maxE H now ttl k v s = (false, s) := by
  unfold SetNX
  simp [hce, hget]

theorem SetNX_absent (maxE : Int) (H : Bytes → Nat) (now ttl : Int) (k v : Bytes)
    (s : HashMap) (hce : CheckEntries maxE s.core = true)
    (hget : (Get H s.core k).1 = false) :
    SetNX maxE H now ttl k v s = Set H now ttl k v s := by
  unfold SetNX
  simp [hce, hget]

/-! ### Claim C2 -/

/-- C2: on a database where these are the only operations,
`Set(k,v,0); Get(k)` returns `(true, v)`;
`Set(k,v1,0); Set(k,v2,0); Get(k)` returns `(true, v2)`;
`Set(k,v,0); Delete(k); Get(k)` returns found = false; and
`SetIfAbsent(k,v1,0)` returns true, a second `SetIfAbsent(k,v2,0)` returns
false, and `Get(k)` afterwards returns `(true, v1)`. -/
theorem C2_single_key_roundtrips (H : Bytes → Nat) (S : Nat)
    (t0 now1 now2 maxE : Int) (k v v1 v2 : Bytes) (hmax : 0 < maxE) :
    (Get H ((Set H now1 0 k v (freshMap S t0)).2).core k = (true, v)) ∧
    (Get H ((Set H now2 0 k v2 ((Set H now1 0 k v1 (freshMap S t0)).2)).2).core k
        = (true, v2)) ∧
    ((Get H ((Del H k ((Set H now1 0 k v (freshMap S t0)).2)).2).core k).1 = false) ∧
    ((SetNX maxE H now1 0 k v1 (freshMap S t0)).1 = true ∧
      (SetNX maxE H now2 0 k v2 ((SetNX maxE H now1 0 k v1 (freshMap S t0)).2)).1
        = false ∧
      Get H ((SetNX maxE H now2 0 k v2
          ((SetNX maxE H now1 0 k v1 (freshMap S t0)).2)).2).core k = (true, v1)) := by
  have hlf : (freshMap S t0).core.table.length = 2 ^ 11 := fresh_table_length S t0
  have hl1 : ((Set H now1 0 k v1 (freshMap S t0)).2).core.table.length = 2 ^ 11 := by
    rw [Set_core_eq, SetCore_table_length]; exact hlf
  have hlv : ((Set H now1 0 k v (freshMap S t0)).2).core.table.length = 2 ^ 11 := by
    rw [Set_core_eq, SetCore_table_length]; exact hlf
  have hce : CheckEntries maxE (freshMap S t0).core = true := by
    unfold CheckEntries
    rw [show (freshMap S t0).core.entries = 0 from rfl, toInt64_zero]
    simp [hmax]
  have hget : Get H (freshMap S t0).core k = (false, []) := Get_fresh H S t0 k
  have hst1 : SetNX maxE H now1 0 k v1 (freshMap S t0)
      = Set H now1 0 k v1 (freshMap S t0) :=
    SetNX_absent maxE H now1 0 k v1 _ hce (by rw [hget])
  have hgst1 : Get H ((SetNX maxE H now1 0 k v1 (freshMap S t0)).2).core k = (true, v1) := by
    rw [hst1, Set_core_eq]
    exact Get_SetCore_same H now1 0 k v1 _ 11 hlf
  have h2 : SetNX maxE H now2 0 k v2 ((SetNX maxE H now1 0 k v1 (freshMap S t0)).2)
      = (false, (SetNX maxE H now1 0 k v1 (freshMap S t0)).2) := by
    cases hc2 : CheckEntries maxE ((SetNX maxE H now1 0 k v1 (freshMap S t0)).2).core with
    | false => exact SetNX_cap maxE H now2 0 k v2 _ hc2
    | true => exact SetNX_found maxE H now2 0 k v2 _ hc2 (by rw [hgst1])
  refine ⟨?_, ?_, ?_, ?_, ?_, ?_⟩
  · rw [Set_core_eq]
    exact Get_SetCore_same H now1 0 k v _ 11 hlf
  · rw [Set_core_eq]
    exact Get_SetCore_same H now2 0 k v2 _ 11 hl1
  · rw [Del_core_eq, Get_eq_bucket, DelCore_bucket H k _ 11 hlv]
    have hb : bucketChain H ((Set H now1 0 k v (freshMap S t0)).2).core k
        = [NewEntry 0 k v (H k)] := by
      rw [Set_core_eq, SetCore_bucket H now1 0 k v _ 11 hlf,
          show bucketChain H (freshMap S t0).core k = [] from bucket_fresh H S t0 k]
      simp [setChain]
    rw [hb]
    simp [delChain, NewEntry, getChain]
  · rw [hst1, Set_fst]
    exact SetCore_fst H now1 0 k v1 _
  · rw [h2]
  · rw [h2]
    exact hgst1

/-- Witness for C2 at a concrete instance. -/
theorem C2_single_key_roundtrips_witness :
    (0 : Int) < 100 ∧
      Get (fun _ => 0) ((Set (fun _ => 0) 0 0 [107] [118] (freshMap 2 0)).2).core [107]
        = (true, [118]) :=
  ⟨by norm_num,
    (C2_single_key_roundtrips (fun _ => 0) 2 0 0 0 100 [107] [118] [49] [50]
      (by norm_num)).1⟩

/-! ### Incr chain lemmas (claim C4) -/

theorem incrChain_none (now ttl : Int) (k a : Bytes) (m : TTLManager) :
    ∀ ch : List Entry,
      incrChain now ttl k a m ch = none ↔ (getChain k ch).1 = false := by
  intro ch
  induction ch with
  | nil => simp [incrChain, getChain]
  | cons e rest ih =>
      by_cases he : e.key = k
      · constructor
        · intro h
          exfalso
          cases hp : parseInt64 e.value with
          | none => simp [incrChain, he, hp] at h
          | some x =>
              cases hq : parseInt64 a with
              | none => simp [incrChain, he, hp, hq] at h
              | some y => simp [incrChain, he, hp, hq] at h
        · intro h
          exfalso
          simp [getChain, he] at h
      · simp only [incrChain, if_neg he, getChain]
        cases hrec : incrChain now ttl k a m rest with
        | none =>
            rw [hrec] at ih
            simp only [true_iff] at ih
            simp [ih]
        | some p =>
            rw [hrec] at ih
            simp at ih
            simp [ih]

theorem incrChain_fail (now ttl : Int) (k a : Bytes) (m : TTLManager) :
    ∀ (ch : List Entry) (v : Bytes), getChain k ch = (true, v) →
      (parseInt64 v = none ∨ parseInt64 a = none) →
      incrChain now ttl k a m ch = some (false, ch, m) := by
  intro ch
  induction ch with
  | nil => intro v h; simp [getChain] at h
  | cons e rest ih =>
      intro v h hp
      by_cases he : e.key = k
      · simp only [getChain, if_pos he] at h
        cases h
        rcases hp with hp | hp
        · simp [incrChain, he, hp]
        · cases hv : parseInt64 e.value with
          | none => simp [incrChain, he, hv]
          | some x => simp [incrChain, he, hv, hp]
      · simp only [getChain, if_neg he] at h
        simp only [incrChain, if_neg he]
        rw [ih v h hp]

theorem incrChain_ok (now ttl : Int) (k a : Bytes) (m : TTLManager) :
    ∀ (ch : List Entry) (v : Bytes) (x y : Int), getChain k ch = (true, v) →
      parseInt64 v = some x → parseInt64 a = some y →
      ∃ ch' m', incrChain now ttl k a m ch = some (true, ch', m') ∧
        getChain k ch' = (true, formatInt64 (wrapInt64 (x + y))) := by
  intro ch
  induction ch with
  | nil => intro v x y h; simp [getChain] at h
  | cons e rest ih =>
      intro v x y h hx hy
      by_cases he : e.key = k
      · simp only [getChain, if_pos he] at h
        cases h
        refine ⟨{ e with value := formatInt64 (wrapInt64 (x + y)), ttl := ttl } :: rest,
          addEntry now (if e.ttl ≠ 0 then delEntry m e e.ttl else m)
            { e with value := formatInt64 (wrapInt64 (x + y)), ttl := ttl }, ?_, ?_⟩
        · simp [incrChain, he, hx, hy]
        · simp [getChain, he]
      · simp only [getChain, if_neg he] at h
        obtain ⟨ch', m', hrec, hres⟩ := ih v x y h hx hy
        refine ⟨e :: ch', m', ?_, ?_⟩
        · simp only [incrChain, if_neg he, hrec]
        · simp only [getChain, if_neg he, hres]

theorem IncrCore_chain_none (H : Bytes → Nat) (now ttl : Int) (k a : Bytes) (c : Core)
    (b : Nat) (hlen : c.table.length = 2 ^ b)
    (h : incrChain now ttl k a c.ttlm (bucketChain H c k) = none) :
    (IncrCore H now ttl k a c).1 = true ∧
    bucketChain H (IncrCore H now ttl k a c).2 k
      = NewEntry ttl k a (H k) :: bucketChain H c k ∧
    (IncrCore H now ttl k a c).2.entries = (c.entries + 1) % U64 := by
  have hi : H k &&& (c.table.length - 1) < c.table.length :=
    mask_lt_of_pow (H k) _ b hlen
  unfold bucketChain getIndex at h ⊢
  unfold IncrCore getIndex
  simp only [h]
  refine ⟨by simp, ?_, by simp⟩
  simp only [List.length_set]
  exact getD_set_self _ _ _ _ hi

theorem IncrCore_chain_some (H : Bytes → Nat) (now ttl : Int) (k a : Bytes) (c : Core)
    (b : Nat) (hlen : c.table.length = 2 ^ b) (bo : Bool) (ch' : List Entry)
    (m' : TTLManager)
    (h : incrChain now ttl k a c.ttlm (bucketChain H c k) = some (bo, ch', m')) :
    (IncrCore H now ttl k a c).1 = bo ∧
    bucketChain H (IncrCore H now ttl k a c).2 k = ch' := by
  have hi : H k &&& (c.table.length - 1) < c.table.length :=
    mask_lt_of_pow (H k) _ b hlen
  unfold bucketChain getIndex at h ⊢
  unfold IncrCore getIndex
  simp only [h]
  refine ⟨by simp, ?_⟩
  simp only [List.length_set]
  exact getD_set_self _ _ _ _ hi

/-! ### Claim C4 -/

/-- C4: `Increment(key, amount, ttl)` parses the current value and the amount
as signed 64-bit decimal integers: when the key exists and both parse, it
stores the `int64`-formatted sum and returns true; when the current value or
the amount does not parse, it returns false and the stored value is
unchanged; when the key is absent, it stores `amount` verbatim and returns
true. -/
theorem C4_increment_semantics (H : Bytes → Nat) (now ttl : Int) (k a : Bytes)
    (c : Core) (b : Nat) (hlen : c.table.length = 2 ^ b) :
    ((Get H c k).1 = false →
        (IncrCore H now ttl k a c).1 = true ∧
        Get H (IncrCore H now ttl k a c).2 k = (true, a)) ∧
    (∀ v x y, Get H c k = (true, v) →
        parseInt64 v = some x → parseInt64 a = some y →
        (IncrCore H now ttl k a c).1 = true ∧
        Get H (IncrCore H now ttl k a c).2 k
          = (true, formatInt64 (wrapInt64 (x + y)))) ∧
    (∀ v, Get H c k = (true, v) →
        (parseInt64 v = none ∨ parseInt64 a = none) →
        (IncrCore H now ttl k a c).1 = false ∧
        Get H (IncrCore H now ttl k a c).2 k = (true, v)) := by
  refine ⟨?_, ?_, ?_⟩
  · intro hget
    rw [Get_eq_bucket] at hget
    have hnone : incrChain now ttl k a c.ttlm (bucketChain H c k) = none :=
      (incrChain_none now ttl k a c.ttlm _).2 hget
    obtain ⟨h1, h2, -⟩ := IncrCore_chain_none H now ttl k a c b hlen hnone
    refine ⟨h1, ?_⟩
    rw [Get_eq_bucket, h2]
    simp [getChain, NewEntry]
  · intro v x y hget hx hy
    rw [Get_eq_bucket] at hget
    obtain ⟨ch', m', heq, hres⟩ :=
      incrChain_ok now ttl k a c.ttlm (bucketChain H c k) v x y hget hx hy
    obtain ⟨h1, h2⟩ := IncrCore_chain_some H now ttl k a c b hlen true ch' m' heq
    refine ⟨h1, ?_⟩
    rw [Get_eq_bucket, h2]
    exact hres
  · intro v hget hp
    rw [Get_eq_bucket] at hget
    have heq : incrChain now ttl k a c.ttlm (bucketChain H c k)
        = some (false, bucketChain H c k, c.ttlm) :=
      incrChain_fail now ttl k a c.ttlm _ v hget hp
    obtain ⟨h1, h2⟩ :=
      IncrCore_chain_some H now ttl k a c b hlen false (bucketChain H c k) c.ttlm heq
    refine ⟨h1, ?_⟩
    rw [Get_eq_bucket, h2]
    exact hget

theorem Incr_core_eq (H : Bytes → Nat) (now ttl : Int) (k a : Bytes) (s : HashMap) :
    (Incr H now ttl k a s).2.core = (IncrCore H now ttl k a s.core).2 := by
  unfold Incr
  by_cases hr : s.reset <;> simp [hr]

theorem Incr_fst (H : Bytes → Nat) (now ttl : Int) (k a : Bytes) (s : HashMap) :
    (Incr H now ttl k a s).1 = (IncrCore H now ttl k a s.core).1 := by
  unfold Incr
  by_cases hr : s.reset <;> simp [hr]

theorem IncrCore_table_length (H : Bytes → Nat) (now ttl : Int) (k a : Bytes) (c : Core) :
    (IncrCore H now ttl k a c).2.table.length = c.table.length := by
  unfold IncrCore getIndex
  cases hic : incrChain now ttl k a c.ttlm
      (c.table.getD (H k &&& (c.table.length - 1)) []) with
  | some p =>
      obtain ⟨bo, ch', m'⟩ := p
      simp only [hic]
      exact List.length_set ..
  | none => simp only [hic]; exact List.length_set ..

/-- Witness for C4 at a concrete instance: a fresh database (so the key is
absent, stores the amount verbatim), then an increment on the stored value. -/
theorem C4_increment_semantics_witness :
    ((Get (fun _ => 0) (freshCore 2 0) [99]).1 = false →
        (IncrCore (fun _ => 0) 0 0 [99] [49, 48] (freshCore 2 0)).1 = true ∧
        Get (fun _ => 0) (IncrCore (fun _ => 0) 0 0 [99] [49, 48] (freshCore 2 0)).2 [99]
          = (true, [49, 48])) ∧
    ((Get (fun _ => 0) (freshCore 2 0) [99]).1 = false) :=
  ⟨(C4_increment_semantics (fun _ => 0) 0 0 [99] [49, 48] (freshCore 2 0) 11
      (fresh_table_length 2 0)).1,
   by rw [Get_fresh]⟩

/-! ### Claim C9 -/

/-- The ttl stored for a key, as recorded on its bucket's chain. -/
def ttlChain (key : Bytes) : List Entry → Option Int
  | [] => none
  | e :: rest => if e.key = key then some e.ttl else ttlChain key rest

/-- The ttl field of the live entry for `key`, if any. -/
def GetTtl (H : Bytes → Nat) (c : Core) (key : Bytes) : Option Int :=
  ttlChain key (bucketChain H c key)

/-- C9: in live mode every `HashMap.Incr` call enqueues a log record whose
`Ttl` field is 0 regardless of the ttl argument, so a TTL installed via
Increment is absent from the state reconstructed by replaying the log: on a
fresh database the live entry carries `ttl` while the replayed entry carries
ttl 0. -/
theorem C9_incr_log_ttl_zero (H : Bytes → Nat) (S : Nat) (t0 now nowR ttl : Int)
    (k a : Bytes) (s : HashMap) (hreset : s.reset = false) :
    (Incr H now ttl k a s).2.aof = s.aof ++ [⟨actIncr, k, a, 0⟩] ∧
    GetTtl H ((Incr H now ttl k a (freshMap S t0)).2).core k = some ttl ∧
    GetTtl H (replayRun H nowR (freshCore S t0)
        ((Incr H now ttl k a (freshMap S t0)).2).aof) k = some 0 := by
  have hfreshchain : ∀ ttl' now',
      incrChain now' ttl' k a (freshCore S t0).ttlm (bucketChain H (freshCore S t0) k)
        = none := by
    intro ttl' now'
    rw [bucket_fresh]
    simp [incrChain]
  have hbucket : ∀ ttl' now',
      GetTtl H (IncrCore H now' ttl' k a (freshCore S t0)).2 k = some ttl' := by
    intro ttl' now'
    obtain ⟨-, h2, -⟩ := IncrCore_chain_none H now' ttl' k a (freshCore S t0) 11
      (fresh_table_length S t0) (hfreshchain ttl' now')
    unfold GetTtl
    rw [h2, bucket_fresh]
    simp [ttlChain, NewEntry]
  refine ⟨?_, ?_, ?_⟩
  · unfold Incr
    simp [hreset]
  · rw [Incr_core_eq]
    exact hbucket ttl now
  · have haof : ((Incr H now ttl k a (freshMap S t0)).2).aof = [⟨actIncr, k, a, 0⟩] := by
      unfold Incr
      simp [show (freshMap S t0).reset = false from rfl, freshMap]
    rw [haof]
    unfold replayRun
    rw [List.foldl_cons, List.foldl_nil]
    unfold replayStep
    norm_num [actIncr, actSet, actDel]
    exact hbucket 0 nowR

/-- Witness for C9 at a concrete instance. -/
theorem C9_incr_log_ttl_zero_witness :
    (Incr (fun _ => 0) 50 7 [107] [49] (freshMap 2 0)).2.aof = [] ++ [⟨actIncr, [107], [49], 0⟩] ∧
    GetTtl (fun _ => 0) ((Incr (fun _ => 0) 50 7 [107] [49] (freshMap 2 0)).2).core [107]
      = some 7 ∧
    GetTtl (fun _ => 0) (replayRun (fun _ => 0) 90 (freshCore 2 0)
        ((Incr (fun _ => 0) 50 7 [107] [49] (freshMap 2 0)).2).aof) [107] = some 0 :=
  C9_incr_log_ttl_zero (fun _ => 0) 2 0 50 90 7 [107] [49] (freshMap 2 0) rfl

/-! ### Claim C10 -/

/-- C10: when the entry count has reached the per-database cap, `Server.Set`
and `Server.SetNX` return false without mutating the table, but `Server.Incr`
performs no cap check: an Increment on an absent key still inserts a new
entry, growing the table past the cap. -/
theorem C10_cap_check (maxE : Int) (H : Bytes → Nat) (now ttl : Int)
    (k v a : Bytes) (s : HashMap) (b : Nat) (hlen : s.core.table.length = 2 ^ b)
    (hfull : CheckEntries maxE s.core = false) :
    SrvSet maxE H now ttl k v s = (false, s) ∧
    SetNX maxE H now ttl k v s = (false, s) ∧
    ((Get H s.core k).1 = false →
      (SrvIncr H now k a s).1 = true ∧
      (Get H (SrvIncr H now k a s).2.core k).1 = true ∧
      (SrvIncr H now k a s).2.core.entries = (s.core.entries + 1) % U64) := by
  refine ⟨?_, ?_, ?_⟩
  · unfold SrvSet
    simp [hfull]
  · exact SetNX_cap maxE H now ttl k v s hfull
  · intro hget
    rw [Get_eq_bucket] at hget
    have hnone : incrChain now 0 k a s.core.ttlm (bucketChain H s.core k) = none :=
      (incrChain_none now 0 k a s.core.ttlm _).2 hget
    obtain ⟨h1, h2, h3⟩ := IncrCore_chain_none H now 0 k a s.core b hlen hnone
    refine ⟨?_, ?_, ?_⟩
    · unfold SrvIncr
      rw [Incr_fst]
      exact h1
    · unfold SrvIncr
      rw [Incr_core_eq, Get_eq_bucket, h2]
      simp [getChain, NewEntry]
    · unfold SrvIncr
      rw [Incr_core_eq]
      exact h3

theorem fresh_set_entries_one (H : Bytes → Nat) (S : Nat) (t0 now ttl : Int)
    (k v : Bytes) :
    ((Set H now ttl k v (freshMap S t0)).2).core.entries = 1 := by
  rw [Set_core_eq]
  have hsc : setChain now ttl k v (freshMap S t0).core.ttlm
      (bucketChain H (freshMap S t0).core k) = none := by
    rw [show bucketChain H (freshMap S t0).core k = [] from bucket_fresh H S t0 k]
    rfl
  rw [(SetCore_absent_parts H now ttl k v (freshMap S t0).core hsc).2]
  rfl

theorem fresh_set_cap_full (H : Bytes → Nat) (S : Nat) (t0 now ttl : Int)
    (k v : Bytes) :
    CheckEntries 1 ((Set H now ttl k v (freshMap S t0)).2).core = false := by
  unfold CheckEntries
  rw [fresh_set_entries_one H S t0 now ttl k v, toInt64_one]
  simp

/-- Witness for C10: a database at cap 1 holding one entry. -/
theorem C10_cap_check_witness :
    SrvSet 1 (fun _ => 0) 0 0 [110] [118]
        ((Set (fun _ => 0) 0 0 [107] [118] (freshMap 2 0)).2)
      = (false, (Set (fun _ => 0) 0 0 [107] [118] (freshMap 2 0)).2) ∧
    CheckEntries 1 ((Set (fun _ => 0) 0 0 [107] [118] (freshMap 2 0)).2).core = false :=
  ⟨(C10_cap_check 1 (fun _ => 0) 0 0 [110] [118] [97]
      ((Set (fun _ => 0) 0 0 [107] [118] (freshMap 2 0)).2) 11
      (by rw [Set_core_eq, SetCore_table_length]; exact fresh_table_length 2 0)
      (fresh_set_cap_full (fun _ => 0) 2 0 0 0 [107] [118])).1,
   fresh_set_cap_full (fun _ => 0) 2 0 0 0 [107] [118]⟩

/-! ### Claim C3 -/

/-- C3 (code bug): `addEntry` records the TTL membership of an entry in the
bucket keyed `now + ttl`, while `delEntry(item, item.Ttl)` — called by both
`Del` and `Set`-overwrite — looks up bucket `item.Ttl` (the relative ttl
argument); so deleting a key does not remove its expiration membership.
On a database created at second 100: `Set(k, v, ttl=5)` at second 1000 puts
the membership in bucket 1005, and `Delete(k)` removes the entry from the
table but leaves the bucket-1005 membership in place. -/
theorem C3_delEntry_wrong_bucket :
    (Get (fun _ => 0) ((Del (fun _ => 0) [107]
        ((Set (fun _ => 0) 1000 5 [107] [118] (freshMap 2 100)).2)).2).core [107]).1
      = false ∧
    ttlMember ((Set (fun _ => 0) 1000 5 [107] [118]
        (freshMap 2 100)).2).core.ttlm 1005 [107] = true ∧
    ttlMember ((Del (fun _ => 0) [107]
        ((Set (fun _ => 0) 1000 5 [107] [118] (freshMap 2 100)).2)).2).core.ttlm
        1005 [107] = true := by
  have hsc : setChain 1000 5 [107] [118] (freshMap 2 100).core.ttlm
      (bucketChain (fun _ => 0) (freshMap 2 100).core [107]) = none := by
    rw [show bucketChain (fun _ => 0) (freshMap 2 100).core [107] = []
          from bucket_fresh (fun _ => 0) 2 100 [107]]
    rfl
  have httlm1 : ((Set (fun _ => 0) 1000 5 [107] [118] (freshMap 2 100)).2).core.ttlm
      = addEntry 1000 (NewTTLManager 2 100) (NewEntry 5 [107] [118] 0) := by
    rw [Set_core_eq]
    exact (SetCore_absent_parts (fun _ => 0) 1000 5 [107] [118]
      (freshMap 2 100).core hsc).1
  have hlenf : (freshMap 2 100).core.table.length = 2 ^ 11 := fresh_table_length 2 100
  have hb1 : bucketChain (fun _ => 0)
      ((Set (fun _ => 0) 1000 5 [107] [118] (freshMap 2 100)).2).core [107]
      = [NewEntry 5 [107] [118] 0] := by
    rw [Set_core_eq,
        SetCore_bucket (fun _ => 0) 1000 5 [107] [118] _ 11 hlenf,
        show bucketChain (fun _ => 0) (freshMap 2 100).core [107] = []
          from bucket_fresh (fun _ => 0) 2 100 [107]]
    rfl
  have hdc : delChain [107] (bucketChain (fun _ => 0)
      ((Set (fun _ => 0) 1000 5 [107] [118] (freshMap 2 100)).2).core [107])
      = some ([], NewEntry 5 [107] [118] 0) := by
    rw [hb1]
    rfl
  have hlen1 : ((Set (fun _ => 0) 1000 5 [107] [118]
      (freshMap 2 100)).2).core.table.length = 2 ^ 11 := by
    rw [Set_core_eq, SetCore_table_length]
    exact fresh_table_length 2 100
  refine ⟨?_, ?_, ?_⟩
  · rw [Del_core_eq, Get_eq_bucket,
        DelCore_bucket (fun _ => 0) [107] _ 11 hlen1, hdc]
    rfl
  · rw [httlm1]
    decide
  · rw [Del_core_eq,
        (DelCore_chain_some (fun _ => 0) [107] _ _ _ hdc).2.1, httlm1]
    decide

/-! ### Claim C7 -/

/-- Membership of `k` at second `sec` in shard `j` of the expiration
manager (an absent bucket holds no members). -/
def shardMember (m : TTLManager) (j : Nat) (sec : Int) (k : Bytes) : Bool :=
  (alook ((ilook (m.shards.getD j []) sec).getD []) k).isSome

theorem ilook_iput_self {β : Type} (sh : List (Int × β)) (s : Int) (x : β) :
    ilook (iput sh s x) s = some x := by
  induction sh with
  | nil => simp [iput, ilook]
  | cons p rest ih =>
      obtain ⟨a, bv⟩ := p
      by_cases ha : a = s
      · simp [iput, ilook, ha]
      · simp [iput, ilook, ha, ih]

theorem ilook_iput_ne {β : Type} (sh : List (Int × β)) (s t : Int) (x : β)
    (h : t ≠ s) : ilook (iput sh s x) t = ilook sh t := by
  induction sh with
  | nil =>
      simp only [iput, ilook]
      rw [if_neg (fun hh : s = t => h hh.symm)]
  | cons p rest ih =>
      obtain ⟨a, bv⟩ := p
      simp only [iput]
      by_cases ha : a = s
      · rw [if_pos ha]
        simp only [ilook]
        have hat : ¬(a = t) := by intro hh; exact h (by rw [← hh]; exact ha)
        rw [if_neg hat, if_neg hat]
      · rw [if_neg ha]
        simp only [ilook]
        by_cases hat : a = t
        · rw [if_pos hat, if_pos hat]
        · rw [if_neg hat, if_neg hat]
          exact ih

theorem alook_aput_self (bu : List (Bytes × Entry)) (k : Bytes) (v : Entry) :
    alook (aput bu k v) k = some v := by
  induction bu with
  | nil => simp [aput, alook]
  | cons p rest ih =>
      obtain ⟨a, bv⟩ := p
      by_cases ha : a = k
      · simp [aput, alook, ha]
      · simp [aput, alook, ha, ih]

theorem alook_aput_ne (bu : List (Bytes × Entry)) (k k' : Bytes) (v : Entry)
    (h : k' ≠ k) : alook (aput bu k v) k' = alook bu k' := by
  induction bu with
  | nil =>
      simp only [aput, alook]
      rw [if_neg (fun hh : k = k' => h hh.symm)]
  | cons p rest ih =>
      obtain ⟨a, bv⟩ := p
      simp only [aput]
      by_cases ha : a = k
      · rw [if_pos ha]
        simp only [alook]
        have hak : ¬(a = k') := by intro hh; exact h (by rw [← hh]; exact ha)
        rw [if_neg hak, if_neg hak]
      · rw [if_neg ha]
        simp only [alook]
        by_cases hak : a = k'
        · rw [if_pos hak, if_pos hak]
        · rw [if_neg hak, if_neg hak]
          exact ih

/-- C7 (amended): for an entry with TTL > 0 the manager computes
`future = now + ttl`; if `future ≤ last_deleted` the entry is dropped without
any further effect — the manager is unchanged, and nothing is enqueued for
deletion; otherwise exactly one membership is added, under second `future` in
shard `hash &&& (S-1)`, all other memberships being untouched. -/
theorem C7_admission (m : TTLManager) (e : Entry) (now : Int) (b : Nat)
    (hS : m.shards.length = m.numShards) (hpow : m.numShards = 2 ^ b)
    (hpos : 0 < e.ttl) :
    (now + e.ttl ≤ m.lastDeleted → addEntry now m e = m) ∧
    (m.lastDeleted < now + e.ttl →
      shardMember (addEntry now m e) (e.hash &&& (m.numShards - 1))
          (now + e.ttl) e.key = true ∧
      (∀ j sec k', ¬(j = e.hash &&& (m.numShards - 1) ∧ sec = now + e.ttl ∧ k' = e.key) →
        shardMember (addEntry now m e) j sec k' = shardMember m j sec k')) := by
  have hlt : e.hash &&& (m.numShards - 1) < m.shards.length := by
    rw [hS]
    exact mask_lt_of_pow e.hash m.numShards b hpow
  constructor
  · intro hdrop
    unfold addEntry
    rw [if_neg (by omega), if_pos hdrop]
  · intro hlive
    have haddeq : addEntry now m e =
        { m with shards := (m.shards.set (e.hash &&& (m.numShards - 1))
            (iput (m.shards.getD (e.hash &&& (m.numShards - 1)) []) (now + e.ttl)
              (aput ((ilook (m.shards.getD (e.hash &&& (m.numShards - 1)) [])
                (now + e.ttl)).getD []) e.key e))) } := by
      unfold addEntry
      rw [if_neg (by omega), if_neg (by omega)]
    constructor
    · rw [haddeq]
      unfold shardMember
      dsimp only
      rw [getD_set_self _ _ _ _ hlt, ilook_iput_self, Option.getD_some, alook_aput_self]
      rfl
    · intro j sec k' hne
      rw [haddeq]
      unfold shardMember
      dsimp only
      by_cases hj : j = e.hash &&& (m.numShards - 1)
      · subst hj
        rw [getD_set_self _ _ _ _ hlt]
        by_cases hsec : sec = now + e.ttl
        · subst hsec
          have hk' : k' ≠ e.key := by tauto
          rw [ilook_iput_self, Option.getD_some, alook_aput_ne _ _ _ _ hk']
        · rw [ilook_iput_ne _ _ _ _ hsec]
      · rw [getD_set_ne _ _ _ _ _ (fun hh => hj hh.symm)]

/-- C7 counterexample: with `last_deleted = 2000`, a `Set` at `now = 1000`
with ttl 5 (so `future = 1005 ≤ 2000`) leaves the entry live in the table and
the expiration manager completely unchanged: the "expired" entry is not
enqueued for deletion, contrary to the claim. -/
theorem C7_drop_counterexample :
    (Get (fun _ => 0) ((Set (fun _ => 0) 1000 5 [107] [118]
        (freshMap 2 2000)).2).core [107]).1 = true ∧
    ((Set (fun _ => 0) 1000 5 [107] [118] (freshMap 2 2000)).2).core.ttlm
      = NewTTLManager 2 2000 := by
  have hlenf : (freshMap 2 2000).core.table.length = 2 ^ 11 := fresh_table_length 2 2000
  have hsc : setChain 1000 5 [107] [118] (freshMap 2 2000).core.ttlm
      (bucketChain (fun _ => 0) (freshMap 2 2000).core [107]) = none := by
    rw [show bucketChain (fun _ => 0) (freshMap 2 2000).core [107] = []
          from bucket_fresh (fun _ => 0) 2 2000 [107]]
    rfl
  constructor
  · rw [Set_core_eq, Get_SetCore_same (fun _ => 0) 1000 5 [107] [118] _ 11 hlenf]
  · rw [Set_core_eq, (SetCore_absent_parts (fun _ => 0) 1000 5 [107] [118]
        (freshMap 2 2000).core hsc).1]
    decide

/-- Witness for C7 at a concrete admitted entry. -/
theorem C7_admission_witness :
    shardMember (addEntry 600 (NewTTLManager 2 500) ⟨3, [107], [118], 7⟩)
      1 607 [107] = true :=
  ((C7_admission (NewTTLManager 2 500) ⟨3, [107], [118], 7⟩ 600 1 rfl rfl
      (by norm_num)).2 (by decide)).1

/-! ### Claim C8 -/

/-- A small core state for exercising the scheduler tick. -/
def tickCore (en dl : Nat) : Core :=
  { table := [], entries := en, deletedEntries := dl, ttlm := NewTTLManager 2 0 }

/-- C8 counterexample: at `entries = 2`, `deleted = 1` the claim's condition
`deleted ≥ max(entries, 2) / 2` holds, but the scheduler does not signal
compaction (its condition `(entries > 2 || deleted > 2) && deleted ≥
entries/2` fails). -/
theorem C8_compaction_trigger_counterexample :
    Int.tdiv (max (toInt64 2) 2) 2 ≤ ((1 : Nat) : Int) ∧
    (compactTick (tickCore 2 1)).1 = false := by
  constructor
  · decide
  · decide

/-- C8 (amended): the 60-second scheduler tick signals compaction exactly
when `(entries > 2 or deleted > 2) and deleted ≥ entries/2` (which agrees
with the claim's `deleted ≥ max(entries,2)/2` whenever `entries ≥ 3`),
resetting the deleted-entries counter after signalling and leaving the state
unchanged otherwise. -/
theorem C8_compaction_trigger (c : Core) :
    ((compactTick c).1 = true ↔
      ((2 < toInt64 c.entries ∨ 2 < (c.deletedEntries : Int)) ∧
        Int.tdiv (toInt64 c.entries) 2 ≤ (c.deletedEntries : Int))) ∧
    ((compactTick c).1 = true → (compactTick c).2 = { c with deletedEntries := 0 }) ∧
    ((compactTick c).1 = false → (compactTick c).2 = c) ∧
    (3 ≤ toInt64 c.entries →
      ((compactTick c).1 = true ↔
        Int.tdiv (max (toInt64 c.entries) 2) 2 ≤ (c.deletedEntries : Int))) := by
  unfold compactTick
  by_cases hcond : (2 < toInt64 c.entries ∨ 2 < (c.deletedEntries : Int)) ∧
      Int.tdiv (toInt64 c.entries) 2 ≤ (c.deletedEntries : Int)
  · rw [if_pos hcond]
    refine ⟨?_, ?_, ?_, ?_⟩
    · exact ⟨fun _ => hcond, fun _ => rfl⟩
    · exact fun _ => rfl
    · intro h
      exact Bool.noConfusion h
    · intro h3
      rw [max_eq_left (by omega : (2 : Int) ≤ toInt64 c.entries)]
      exact ⟨fun _ => hcond.2, fun _ => rfl⟩
  · rw [if_neg hcond]
    refine ⟨?_, ?_, ?_, ?_⟩
    · exact ⟨fun h => Bool.noConfusion h, fun hh => absurd hh hcond⟩
    · intro h
      exact Bool.noConfusion h
    · exact fun _ => rfl
    · intro h3
      rw [max_eq_left (by omega : (2 : Int) ≤ toInt64 c.entries)]
      constructor
      · intro h
        exact Bool.noConfusion h
      · intro hd
        exact absurd ⟨Or.inl (by omega), hd⟩ hcond

/-- Witness for C8 at a concrete core state with entries ≥ 3. -/
theorem C8_compaction_trigger_witness :
    (compactTick (tickCore 5 3)).1 = true ↔
      Int.tdiv (max (toInt64 5) 2) 2 ≤ ((3 : Nat) : Int) :=
  (C8_compaction_trigger (tickCore 5 3)).2.2.2 (by decide)

theorem compactTick_table (c : Core) : (compactTick c).2.table = c.table := by
  unfold compactTick
  split <;> rfl

theorem compactTick_aof_core (c : Core) :
    (compactTick c).2.table = c.table ∧ (compactTick c).2.ttlm = c.ttlm := by
  unfold compactTick
  split <;> exact ⟨rfl, rfl⟩

attribute [irreducible] compactTick

/-! ### Frame encoding lemmas (claim C5) -/

/-- A record whose fields fit their wire encodings: field lengths below
`2^32` and ttl in the signed 64-bit range (true of every record the engine
produces). -/
def FrameOK (d : Data) : Prop :=
  d.action.length < 2 ^ 32 ∧ d.key.length < 2 ^ 32 ∧ d.value.length < 2 ^ 32 ∧
  -2 ^ 63 ≤ d.ttl ∧ d.ttl < 2 ^ 63

instance (d : Data) : Decidable (FrameOK d) := by
  unfold FrameOK
  infer_instance

theorem beVal_be32 (n : Nat) (h : n < 2 ^ 32) : beVal (be32 n) = n := by
  simp only [be32, beVal, List.foldl]
  omega

theorem beVal_be64 (n : Nat) (h : n < 2 ^ 64) : beVal (be64 n) = n := by
  simp only [be64, beVal, List.foldl]
  omega

theorem be32_length (n : Nat) : (be32 n).length = 4 := rfl

theorem be64_length (n : Nat) : (be64 n).length = 8 := rfl

theorem encTtl_length (t : Int) : (encTtl t).length = 8 := rfl

theorem encField_length (f : Bytes) : (encField f).length = 4 + f.length := by
  simp [encField, be32]
  omega

theorem decTtl_encTtl (t : Int) (h1 : -2 ^ 63 ≤ t) (h2 : t < 2 ^ 63) :
    toInt64 (beVal (encTtl t)) = t := by
  have hmod : (0 : Int) ≤ t % (2 ^ 64 : Int) := Int.emod_nonneg t (by norm_num)
  have hmod2 : t % (2 ^ 64 : Int) < 2 ^ 64 := Int.emod_lt_of_pos t (by norm_num)
  have hnat : ((t % (2 ^ 64 : Int)).toNat : Int) = t % (2 ^ 64 : Int) :=
    Int.toNat_of_nonneg hmod
  have hlt : (t % (2 ^ 64 : Int)).toNat < 2 ^ 64 := by omega
  unfold encTtl
  rw [beVal_be64 _ hlt]
  unfold toInt64
  omega

theorem readN_exact (xs ys : Bytes) : readN xs.length (xs ++ ys) = .ok xs ys := by
  simp [readN, List.take_left, List.drop_left]

theorem readN_short (n : Nat) (s : Bytes) (h : s.length < n) :
    ∃ e, readN n s = .err e := by
  unfold readN
  rw [if_neg (Nat.not_le.2 h)]
  by_cases hs : s.isEmpty <;> simp [hs]

theorem readField_enc (f : Bytes) (rest : Bytes) (h : f.length < 2 ^ 32) :
    readField (encField f ++ rest) = .ok f rest := by
  unfold readField encField
  rw [List.append_assoc]
  have h1 : readN 4 (be32 (f.length % 2 ^ 32) ++ (f ++ rest))
      = .ok (be32 (f.length % 2 ^ 32)) (f ++ rest) := by
    rw [show (4 : Nat) = (be32 (f.length % 2 ^ 32)).length from rfl]
    exact readN_exact _ _
  simp only [h1]
  rw [beVal_be32 _ (Nat.mod_lt _ (by norm_num)), Nat.mod_eq_of_lt h]
  exact readN_exact f rest

theorem readFrame_enc (d : Data) (rest : Bytes) (h : FrameOK d) :
    readFrame (writeFrame d ++ rest) = .ok d rest := by
  obtain ⟨ha, hk, hv, ht1, ht2⟩ := h
  unfold readFrame writeFrame
  rw [List.append_assoc, List.append_assoc, List.append_assoc]
  simp only [readField_enc _ _ ha, readField_enc _ _ hk, readField_enc _ _ hv]
  have h4 : readN 8 (encTtl d.ttl ++ rest) = .ok (encTtl d.ttl) rest := by
    rw [show (8 : Nat) = (encTtl d.ttl).length from rfl]
    exact readN_exact _ _
  simp only [h4]
  rw [decTtl_encTtl d.ttl ht1 ht2]

theorem take_append_of_le {α : Type} (xs ys : List α) (m : Nat) (h : xs.length ≤ m) :
    (xs ++ ys).take m = xs ++ ys.take (m - xs.length) := by
  rw [List.take_append_eq_append_take, List.take_of_length_le h]

theorem readField_take_short (f rest : Bytes) (m : Nat) (hf : f.length < 2 ^ 32)
    (hm : m < 4 + f.length) :
    ∃ e, readField ((encField f ++ rest).take m) = .err e := by
  unfold encField
  rw [List.append_assoc]
  by_cases h4 : m < 4
  · have hlen : ((be32 (f.length % 2 ^ 32) ++ (f ++ rest)).take m).length < 4 := by
      rw [List.length_take]
      have := List.length_append (be32 (f.length % 2 ^ 32)) (f ++ rest)
      omega
    obtain ⟨e, he⟩ := readN_short 4 _ hlen
    exact ⟨e, by unfold readField; rw [he]⟩
  · push_neg at h4
    rw [take_append_of_le _ _ m (by rw [be32_length]; exact h4)]
    unfold readField
    rw [be32_length]
    have h1 : readN 4 (be32 (f.length % 2 ^ 32) ++ (f ++ rest).take (m - 4))
        = .ok (be32 (f.length % 2 ^ 32)) ((f ++ rest).take (m - 4)) := by
      rw [show (4 : Nat) = (be32 (f.length % 2 ^ 32)).length from rfl]
      exact readN_exact _ _
    simp only [h1]
    rw [beVal_be32 _ (Nat.mod_lt _ (by norm_num)), Nat.mod_eq_of_lt hf]
    have hlen2 : ((f ++ rest).take (m - 4)).length < f.length := by
      rw [List.length_take]
      have := List.length_append f rest
      omega
    exact readN_short f.length _ hlen2

theorem readField_take_long (f rest : Bytes) (m : Nat) (hf : f.length < 2 ^ 32)
    (hm : 4 + f.length ≤ m) :
    readField ((encField f ++ rest).take m) = .ok f (rest.take (m - (4 + f.length))) := by
  unfold encField
  rw [List.append_assoc]
  rw [take_append_of_le _ _ m (by rw [be32_length]; omega), be32_length]
  rw [take_append_of_le _ _ (m - 4) (by omega)]
  unfold readField
  have h1 : readN 4 (be32 (f.length % 2 ^ 32) ++ (f ++ rest.take (m - 4 - f.length)))
      = .ok (be32 (f.length % 2 ^ 32)) (f ++ rest.take (m - 4 - f.length)) := by
    rw [show (4 : Nat) = (be32 (f.length % 2 ^ 32)).length from rfl]
    exact readN_exact _ _
  simp only [h1]
  rw [beVal_be32 _ (Nat.mod_lt _ (by norm_num)), Nat.mod_eq_of_lt hf]
  rw [show m - 4 - f.length = m - (4 + f.length) by omega]
  exact readN_exact f _

theorem readFrame_take_err (d : Data) (m : Nat) (h : FrameOK d)
    (hm : m < (writeFrame d).length) :
    ∃ e, readFrame ((writeFrame d).take m) = .err e := by
  obtain ⟨ha, hk, hv, ht1, ht2⟩ := h
  have hlen : (writeFrame d).length
      = 4 + d.action.length + (4 + d.key.length + (4 + d.value.length + 8)) := by
    unfold writeFrame
    rw [List.length_append, List.length_append, List.length_append,
        encField_length, encField_length, encField_length, encTtl_length]
  rw [hlen] at hm
  unfold writeFrame readFrame
  by_cases h1 : m < 4 + d.action.length
  · obtain ⟨e, he⟩ := readField_take_short d.action
      (encField d.key ++ (encField d.value ++ encTtl d.ttl)) m ha h1
    exact ⟨e, by simp only [he]⟩
  · push_neg at h1
    simp only [readField_take_long d.action
      (encField d.key ++ (encField d.value ++ encTtl d.ttl)) m ha h1]
    by_cases h2 : m - (4 + d.action.length) < 4 + d.key.length
    · obtain ⟨e, he⟩ := readField_take_short d.key (encField d.value ++ encTtl d.ttl)
        (m - (4 + d.action.length)) hk h2
      exact ⟨e, by simp only [he]⟩
    · push_neg at h2
      simp only [readField_take_long d.key (encField d.value ++ encTtl d.ttl)
        (m - (4 + d.action.length)) hk h2]
      by_cases h3 : m - (4 + d.action.length) - (4 + d.key.length) < 4 + d.value.length
      · obtain ⟨e, he⟩ := readField_take_short d.value (encTtl d.ttl)
          (m - (4 + d.action.length) - (4 + d.key.length)) hv h3
        exact ⟨e, by simp only [he]⟩
      · push_neg at h3
        simp only [readField_take_long d.value (encTtl d.ttl)
          (m - (4 + d.action.length) - (4 + d.key.length)) hv h3]
        have hlast : ((encTtl d.ttl).take
            (m - (4 + d.action.length) - (4 + d.key.length) - (4 + d.value.length))).length
            < 8 := by
          rw [List.length_take, encTtl_length]
          omega
        obtain ⟨e, he⟩ := readN_short 8 _ hlast
        exact ⟨e, by simp only [he]⟩

theorem replayBytes_err (H : Bytes → Nat) (now : Int) (c : Core) (s : Bytes)
    (h : ∃ e, readFrame s = .err e) : replayBytes H now c s = c := by
  obtain ⟨e, he⟩ := h
  rw [replayBytes]
  split
  · rfl
  · next d rest heq =>
      rw [he] at heq
      cases heq

theorem replayBytes_cons (H : Bytes → Nat) (now : Int) (c : Core) (d : Data)
    (rest : Bytes) (hok : FrameOK d) :
    replayBytes H now c (writeFrame d ++ rest)
      = replayBytes H now (replayStep H now c d) rest := by
  rw [replayBytes]
  split
  · next e heq =>
      rw [readFrame_enc d rest hok] at heq
      cases heq
  · next d2 rest2 heq =>
      rw [readFrame_enc d rest hok] at heq
      cases heq
      rfl

theorem replayBytes_log (H : Bytes → Nat) (now : Int) (ds : List Data)
    (tail : Bytes) (c : Core) (hds : ∀ x ∈ ds, FrameOK x)
    (htail : ∃ e, readFrame tail = .err e) :
    replayBytes H now c (encodeLog ds ++ tail) = replayRun H now c ds := by
  induction ds generalizing c with
  | nil => simpa [encodeLog, replayRun] using replayBytes_err H now c tail htail
  | cons d ds ih =>
      rw [show encodeLog (d :: ds) = writeFrame d ++ encodeLog ds from by simp [encodeLog],
          List.append_assoc, replayBytes_cons H now c d _ (hds d (by simp))]
      rw [show replayRun H now c (d :: ds)
            = replayRun H now (replayStep H now c d) ds from rfl]
      exact ih _ (fun x hx => hds x (by simp [hx]))

/-! ### Claim C5 -/

/-- C5: log frames round-trip — encoding a record with `writeFrame` and
decoding the bytes with `readFrame` yields the identical record (lengths as
32-bit big-endian, ttl as 64-bit big-endian signed); decoding any proper
prefix of a frame yields `EOF` or unexpected-EOF; and replay of a log with a
truncated trailing frame halts there, keeping the state produced by all
preceding records. -/
theorem C5_frame_roundtrip_truncation :
    (∀ d rest, FrameOK d → readFrame (writeFrame d ++ rest) = .ok d rest) ∧
    (∀ d m, FrameOK d → m < (writeFrame d).length →
      ∃ e, readFrame ((writeFrame d).take m) = .err e) ∧
    (∀ (H : Bytes → Nat) (now : Int) (c : Core) (ds : List Data) (d : Data) (m : Nat),
      (∀ x ∈ ds, FrameOK x) → FrameOK d → m < (writeFrame d).length →
      replayBytes H now c (encodeLog ds ++ (writeFrame d).take m)
        = replayRun H now c ds) :=
  ⟨readFrame_enc, readFrame_take_err,
    fun H now c ds d m hds hd hm =>
      replayBytes_log H now ds _ c hds (readFrame_take_err d m hd hm)⟩

/-- Witness for C5: a concrete "set" frame round-trips. -/
theorem C5_frame_roundtrip_truncation_witness :
    readFrame (writeFrame ⟨actSet, [107], [118], 5⟩ ++ [])
      = .ok ⟨actSet, [107], [118], 5⟩ [] :=
  C5_frame_roundtrip_truncation.1 ⟨actSet, [107], [118], 5⟩ [] (by decide)

/-! ### Replay equivalence (claim C1) -/

theorem addEntry_nonpos (now : Int) (m : TTLManager) (e : Entry) (h : e.ttl ≤ 0) :
    addEntry now m e = m := by
  unfold addEntry
  rw [if_pos h]

theorem setChain_zero (now now' : Int) (k v : Bytes) (m : TTLManager) :
    ∀ ch : List Entry, setChain now 0 k v m ch = setChain now' 0 k v m ch := by
  intro ch
  induction ch with
  | nil => rfl
  | cons e rest ih =>
      by_cases he : e.key = k
      · simp only [setChain, if_pos he]
        rw [addEntry_nonpos, addEntry_nonpos] <;> rfl
      · simp only [setChain, if_neg he, ih]

theorem SetCore_zero (H : Bytes → Nat) (now now' : Int) (k v : Bytes) (c : Core) :
    SetCore H now 0 k v c = SetCore H now' 0 k v c := by
  unfold SetCore getIndex
  simp only [setChain_zero now now' k v c.ttlm]
  cases hsc : setChain now' 0 k v c.ttlm
      (c.table.getD (H k &&& (c.table.length - 1)) []) with
  | some p => simp only [hsc]
  | none =>
      have ha1 : addEntry now c.ttlm (NewEntry 0 k v (H k)) = c.ttlm :=
        addEntry_nonpos _ _ _ (le_refl 0)
      have ha2 : addEntry now' c.ttlm (NewEntry 0 k v (H k)) = c.ttlm :=
        addEntry_nonpos _ _ _ (le_refl 0)
      simp only [hsc, ha1, ha2]

theorem incrChain_zero (now now' : Int) (k a : Bytes) (m : TTLManager) :
    ∀ ch : List Entry, incrChain now 0 k a m ch = incrChain now' 0 k a m ch := by
  intro ch
  induction ch with
  | nil => rfl
  | cons e rest ih =>
      by_cases he : e.key = k
      · simp only [incrChain, if_pos he]
        cases parseInt64 e.value with
        | none => rfl
        | some x =>
            cases parseInt64 a with
            | none => rfl
            | some y =>
                have ha1 : addEntry now (if e.ttl ≠ 0 then delEntry m e e.ttl else m)
                    { e with value := formatInt64 (wrapInt64 (x + y)), ttl := 0 }
                    = (if e.ttl ≠ 0 then delEntry m e e.ttl else m) :=
                  addEntry_nonpos _ _ _ (le_refl 0)
                have ha2 : addEntry now' (if e.ttl ≠ 0 then delEntry m e e.ttl else m)
                    { e with value := formatInt64 (wrapInt64 (x + y)), ttl := 0 }
                    = (if e.ttl ≠ 0 then delEntry m e e.ttl else m) :=
                  addEntry_nonpos _ _ _ (le_refl 0)
                simp only [ha1, ha2]
      · simp only [incrChain, if_neg he, ih]

theorem IncrCore_zero (H : Bytes → Nat) (now now' : Int) (k a : Bytes) (c : Core) :
    IncrCore H now 0 k a c = IncrCore H now' 0 k a c := by
  unfold IncrCore getIndex
  simp only [incrChain_zero now now' k a c.ttlm]
  cases hic : incrChain now' 0 k a c.ttlm
      (c.table.getD (H k &&& (c.table.length - 1)) []) with
  | some p => simp only [hic]
  | none =>
      have ha1 : addEntry now c.ttlm (NewEntry 0 k a (H k)) = c.ttlm :=
        addEntry_nonpos _ _ _ (le_refl 0)
      have ha2 : addEntry now' c.ttlm (NewEntry 0 k a (H k)) = c.ttlm :=
        addEntry_nonpos _ _ _ (le_refl 0)
      simp only [hic, ha1, ha2]

theorem replayStep_set (H : Bytes → Nat) (nowR : Int) (c : Core) (k v : Bytes)
    (ttl : Int) :
    replayStep H nowR c ⟨actSet, k, v, ttl⟩ = (SetCore H nowR ttl k v c).2 := by
  unfold replayStep
  dsimp only
  rw [if_pos rfl]

theorem replayStep_del (H : Bytes → Nat) (nowR : Int) (c : Core) (k : Bytes) :
    replayStep H nowR c ⟨actDel, k, [], 0⟩ = (DelCore H k c).2 := by
  unfold replayStep
  dsimp only
  rw [if_neg (by decide), if_pos rfl]

theorem replayStep_incr (H : Bytes → Nat) (nowR : Int) (c : Core) (k a : Bytes)
    (ttl : Int) :
    replayStep H nowR c ⟨actIncr, k, a, ttl⟩ = (IncrCore H nowR ttl k a c).2 := by
  unfold replayStep
  dsimp only
  rw [if_neg (by decide), if_neg (by decide), if_pos rfl]

/-- One live mutation with ttl 0 is simulated exactly by replaying the log
records it enqueues (at any replay wall-clock). -/
theorem liveApply_sim (H : Bytes → Nat) (nowR : Int) (p : Op × Int)
    (hz : p.1.ttlOf = 0) (s : HashMap) (hr : s.reset = false) :
    (liveApply H s p).reset = false ∧
    ∃ Δ, (liveApply H s p).aof = s.aof ++ Δ ∧
      replayRun H nowR s.core Δ = (liveApply H s p).core := by
  obtain ⟨o, now⟩ := p
  cases o with
  | set k v ttl =>
      have httl : ttl = 0 := hz
      subst httl
      refine ⟨by simp [liveApply, Set, hr], [⟨actSet, k, v, 0⟩],
        by simp [liveApply, Set, hr], ?_⟩
      show replayStep H nowR s.core ⟨actSet, k, v, 0⟩ = (Set H now 0 k v s).2.core
      rw [replayStep_set, Set_core_eq]
      exact congrArg Prod.snd (SetCore_zero H nowR now k v s.core)
  | setIfAbsent k v ttl =>
      have httl : ttl = 0 := hz
      subst httl
      by_cases hget : (Get H s.core k).1 = true
      · refine ⟨by simp [liveApply, hget, hr], [], by simp [liveApply, hget], ?_⟩
        simp [liveApply, hget, replayRun]
      · have hla : liveApply H s (Op.setIfAbsent k v 0, now) = (Set H now 0 k v s).2 := by
          simp [liveApply, hget]
        rw [hla]
        refine ⟨by simp [Set, hr], [⟨actSet, k, v, 0⟩], by simp [Set, hr], ?_⟩
        show replayStep H nowR s.core ⟨actSet, k, v, 0⟩ = (Set H now 0 k v s).2.core
        rw [replayStep_set, Set_core_eq]
        exact congrArg Prod.snd (SetCore_zero H nowR now k v s.core)
  | incr k a ttl =>
      have httl : ttl = 0 := hz
      subst httl
      refine ⟨by simp [liveApply, Incr, hr], [⟨actIncr, k, a, 0⟩],
        by simp [liveApply, Incr, hr], ?_⟩
      show replayStep H nowR s.core ⟨actIncr, k, a, 0⟩ = (Incr H now 0 k a s).2.core
      rw [replayStep_incr, Incr_core_eq]
      exact congrArg Prod.snd (IncrCore_zero H nowR now k a s.core)
  | del k =>
      refine ⟨by simp [liveApply, Del, hr], [⟨actDel, k, [], 0⟩],
        by simp [liveApply, Del, hr], ?_⟩
      show replayStep H nowR s.core ⟨actDel, k, [], 0⟩ = (Del H k s).2.core
      rw [replayStep_del, Del_core_eq]

/-- Replaying the log written by a ttl-0 mutation sequence reproduces the
live core, from any live starting state. -/
theorem liveRun_sim (H : Bytes → Nat) (nowR : Int) (ops : List (Op × Int)) :
    ∀ s : HashMap, s.reset = false → (∀ p ∈ ops, p.1.ttlOf = 0) →
      (liveRun H s ops).reset = false ∧
      ∃ Δ, (liveRun H s ops).aof = s.aof ++ Δ ∧
        replayRun H nowR s.core Δ = (liveRun H s ops).core := by
  induction ops with
  | nil =>
      intro s hr _
      exact ⟨hr, [], by simp [liveRun], rfl⟩
  | cons p ops ih =>
      intro s hr hz
      obtain ⟨hr1, Δ1, ha1, hrep1⟩ := liveApply_sim H nowR p (hz p (by simp)) s hr
      obtain ⟨hr2, Δ2, ha2, hrep2⟩ :=
        ih (liveApply H s p) hr1 (fun q hq => hz q (by simp [hq]))
      refine ⟨hr2, Δ1 ++ Δ2, ?_, ?_⟩
      · show (liveRun H (liveApply H s p) ops).aof = s.aof ++ (Δ1 ++ Δ2)
        rw [ha2, ha1, List.append_assoc]
      · show replayRun H nowR s.core (Δ1 ++ Δ2) = (liveRun H (liveApply H s p) ops).core
        unfold replayRun
        rw [List.foldl_append]
        show replayRun H nowR (replayRun H nowR s.core Δ1) Δ2 = _
        rw [hrep1]
        exact hrep2

/-- C1: for every sequence of Set/SetIfAbsent/Increment/Delete mutations with
all ttl arguments 0, applied sequentially to a fresh database, the state
reconstructed by replaying the written log equals the observable in-memory
state: same keys mapped to the same values, and the same entry count. -/
theorem C1_replay_equivalence (H : Bytes → Nat) (S : Nat) (t0 nowR : Int)
    (ops : List (Op × Int)) (hz : ∀ p ∈ ops, p.1.ttlOf = 0) :
    (∀ k, Get H (replayRun H nowR (freshCore S t0)
        ((liveRun H (freshMap S t0) ops).aof)) k
      = Get H ((liveRun H (freshMap S t0) ops).core) k) ∧
    (replayRun H nowR (freshCore S t0) ((liveRun H (freshMap S t0) ops).aof)).entries
      = ((liveRun H (freshMap S t0) ops).core).entries := by
  obtain ⟨hr, Δ, ha, hrep⟩ := liveRun_sim H nowR ops (freshMap S t0) rfl hz
  rw [ha]
  rw [show (freshMap S t0).aof = [] from rfl, List.nil_append]
  rw [show (freshMap S t0).core = freshCore S t0 from rfl] at hrep
  rw [hrep]
  exact ⟨fun k => rfl, rfl⟩

/-- Witness for C1 at a concrete mutation sequence. -/
theorem C1_replay_equivalence_witness :
    Get (fun _ => 0) (replayRun (fun _ => 0) 90 (freshCore 2 0)
        ((liveRun (fun _ => 0) (freshMap 2 0)
          [(Op.set [107] [118] 0, 5), (Op.incr [107] [49] 0, 6),
           (Op.del [107], 7), (Op.setIfAbsent [107] [120] 0, 8)]).aof)) [107]
      = Get (fun _ => 0) ((liveRun (fun _ => 0) (freshMap 2 0)
          [(Op.set [107] [118] 0, 5), (Op.incr [107] [49] 0, 6),
           (Op.del [107], 7), (Op.setIfAbsent [107] [120] 0, 8)]).core) [107] :=
  (C1_replay_equivalence (fun _ => 0) 2 0 90
    [(Op.set [107] [118] 0, 5), (Op.incr [107] [49] 0, 6),
     (Op.del [107], 7), (Op.setIfAbsent [107] [120] 0, 8)] (by decide)).1 [107]

/-! ### Resize lemmas (claim C6) -/

/-- Number of occurrences of an entry in a chain. -/
def chainCount (e : Entry) : List Entry → Nat
  | [] => 0
  | x :: rest => (if x = e then 1 else 0) + chainCount e rest

/-- Number of occurrences of an entry across the whole bucket array. -/
def tableCount (e : Entry) (t : List (List Entry)) : Nat :=
  (t.map (chainCount e)).sum

theorem relinkChain_length (mask : Nat) :
    ∀ (ch : List Entry) (t : List (List Entry)),
      (relinkChain mask t ch).length = t.length := by
  intro ch
  induction ch with
  | nil => intro t; rfl
  | cons x rest ih =>
      intro t
      show (relinkChain mask
        (t.set (x.hash &&& mask) (x :: t.getD (x.hash &&& mask) [])) rest).length
        = t.length
      rw [ih, List.length_set]

theorem checkNewBasket_length (c : Core) :
    (checkNewBasket c).table.length = 2 * c.table.length := by
  show (c.table.foldl (relinkChain (c.table.length * 2 - 1))
      (List.replicate (c.table.length * 2) [])).length = 2 * c.table.length
  have hfold : ∀ (L t : List (List Entry)),
      (L.foldl (relinkChain (c.table.length * 2 - 1)) t).length = t.length := by
    intro L
    induction L with
    | nil => intro t; rfl
    | cons ch L ih =>
        intro t
        show (L.foldl (relinkChain (c.table.length * 2 - 1))
          (relinkChain (c.table.length * 2 - 1) t ch)).length = t.length
        rw [ih, relinkChain_length]
  rw [hfold, List.length_replicate, Nat.mul_comm]

theorem tableCount_set_cons (e x : Entry) :
    ∀ (t : List (List Entry)) (i : Nat), i < t.length →
      tableCount e (t.set i (x :: t.getD i []))
        = (if x = e then 1 else 0) + tableCount e t := by
  intro t
  induction t with
  | nil =>
      intro i h
      simp at h
  | cons ch rest ih =>
      intro i h
      cases i with
      | zero =>
          simp only [List.set, List.getD_cons_zero, tableCount, List.map, List.sum_cons,
            chainCount]
          omega
      | succ j =>
          have hj : j < rest.length := by simpa using h
          simp only [List.set, List.getD_cons_succ, tableCount, List.map, List.sum_cons]
          have := ih j hj
          simp only [tableCount] at this
          omega

theorem relinkChain_count (e : Entry) (mask : Nat) :
    ∀ (ch : List Entry) (t : List (List Entry)), t.length = mask + 1 →
      tableCount e (relinkChain mask t ch) = chainCount e ch + tableCount e t := by
  intro ch
  induction ch with
  | nil =>
      intro t ht
      simp [relinkChain, chainCount]
  | cons x rest ih =>
      intro t ht
      show tableCount e (relinkChain mask
        (t.set (x.hash &&& mask) (x :: t.getD (x.hash &&& mask) [])) rest)
        = chainCount e (x :: rest) + tableCount e t
      have hidx : x.hash &&& mask < t.length := by
        have h1 : x.hash &&& mask ≤ mask := Nat.and_le_right
        omega
      rw [ih _ (by rw [List.length_set]; exact ht)]
      rw [tableCount_set_cons e x t _ hidx]
      simp only [chainCount]
      omega

theorem foldl_relink_count (e : Entry) (mask : Nat) :
    ∀ (L t : List (List Entry)), t.length = mask + 1 →
      tableCount e (L.foldl (relinkChain mask) t) = tableCount e L + tableCount e t := by
  intro L
  induction L with
  | nil =>
      intro t ht
      simp [tableCount]
  | cons ch L ih =>
      intro t ht
      show tableCount e (L.foldl (relinkChain mask) (relinkChain mask t ch))
        = tableCount e (ch :: L) + tableCount e t
      rw [ih _ (by rw [relinkChain_length]; exact ht)]
      rw [relinkChain_count e mask ch t ht]
      simp only [tableCount, List.map, List.sum_cons]
      omega

theorem tableCount_replicate (e : Entry) (n : Nat) :
    tableCount e (List.replicate n []) = 0 := by
  induction n with
  | zero => rfl
  | succ m ih =>
      simp only [List.replicate, tableCount, List.map, List.sum_cons, chainCount]
      simp only [tableCount] at ih
      omega

theorem checkNewBasket_count (e : Entry) (c : Core) (hpos : 0 < c.table.length) :
    tableCount e (checkNewBasket c).table = tableCount e c.table := by
  show tableCount e (c.table.foldl (relinkChain (c.table.length * 2 - 1))
      (List.replicate (c.table.length * 2) [])) = tableCount e c.table
  rw [foldl_relink_count e _ c.table _ (by rw [List.length_replicate]; omega)]
  rw [tableCount_replicate]
  omega

theorem placed_replicate (mask n : Nat) :
    ∀ i (e : Entry), e ∈ (List.replicate n ([] : List Entry)).getD i [] →
      e.hash &&& mask = i := by
  intro i e he
  rw [getD_replicate_self] at he
  cases he

theorem relinkChain_placed (mask : Nat) :
    ∀ (ch : List Entry) (t : List (List Entry)), t.length = mask + 1 →
      (∀ i e, e ∈ t.getD i [] → e.hash &&& mask = i) →
      ∀ i e, e ∈ (relinkChain mask t ch).getD i [] → e.hash &&& mask = i := by
  intro ch
  induction ch with
  | nil =>
      intro t ht hp
      exact hp
  | cons x rest ih =>
      intro t ht hp
      show ∀ i e, e ∈ (relinkChain mask
        (t.set (x.hash &&& mask) (x :: t.getD (x.hash &&& mask) [])) rest).getD i [] →
        e.hash &&& mask = i
      have hidx : x.hash &&& mask < t.length := by
        have h1 : x.hash &&& mask ≤ mask := Nat.and_le_right
        omega
      refine ih _ (by rw [List.length_set]; exact ht) ?_
      intro i e he
      by_cases hi : x.hash &&& mask = i
      · subst hi
        rw [getD_set_self _ _ _ _ hidx] at he
        rcases List.mem_cons.1 he with rfl | hmem
        · rfl
        · exact hp _ e hmem
      · rw [getD_set_ne _ _ _ _ _ hi] at he
        exact hp i e he

theorem foldl_relink_placed (mask : Nat) :
    ∀ (L t : List (List Entry)), t.length = mask + 1 →
      (∀ i e, e ∈ t.getD i [] → e.hash &&& mask = i) →
      ∀ i e, e ∈ (L.foldl (relinkChain mask) t).getD i [] → e.hash &&& mask = i := by
  intro L
  induction L with
  | nil =>
      intro t ht hp
      exact hp
  | cons ch L ih =>
      intro t ht hp
      exact ih _ (by rw [relinkChain_length]; exact ht) (relinkChain_placed mask ch t ht hp)

theorem checkNewBasket_placed (c : Core) (hpos : 0 < c.table.length) :
    ∀ i e, e ∈ (checkNewBasket c).table.getD i [] →
      e.hash &&& (2 * c.table.length - 1) = i := by
  intro i e he
  rw [Nat.mul_comm 2 c.table.length]
  exact foldl_relink_placed (c.table.length * 2 - 1) c.table _
    (by rw [List.length_replicate]; omega) (placed_replicate _ _) i e he

theorem core_with_eq (s : HashMap) (x : Core) :
    ({ s with core := x } : HashMap).core = x := rfl

theorem EngineStep_length (H : Bytes → Nat) {s s' : HashMap}
    (st : EngineStep H s s') :
    s'.core.table.length = s.core.table.length ∨
    s'.core.table.length = 2 * s.core.table.length := by
  cases st with
  | set now ttl k v s =>
      left
      rw [Set_core_eq, SetCore_table_length]
  | incr now ttl k a s =>
      left
      rw [Incr_core_eq, IncrCore_table_length]
  | del k s =>
      left
      rw [Del_core_eq, DelCore_table_length]
  | resize s =>
      show (CheckResize s.core).table.length = s.core.table.length ∨
        (CheckResize s.core).table.length = 2 * s.core.table.length
      unfold CheckResize
      split
      · right
        exact checkNewBasket_length s.core
      · left
        rfl
  | tick s =>
      left
      have hc : ({ s with core := (compactTick s.core).2 } : HashMap).core
          = (compactTick s.core).2 := core_with_eq s (compactTick s.core).2
      rw [show ({ s with core := (compactTick s.core).2 } : HashMap).core.table.length
            = ((compactTick s.core).2).table.length from congrArg _ (congrArg _ hc),
          compactTick_table]

theorem EngineStep_mono (H : Bytes → Nat) {s s' : HashMap}
    (st : EngineStep H s s') :
    s.core.table.length ≤ s'.core.table.length := by
  rcases EngineStep_length H st with h | h <;> omega

theorem Reachable_pow (H : Bytes → Nat) (S : Nat) (t0 : Int) (s : HashMap)
    (h : Reachable H S t0 s) : ∃ k, 11 ≤ k ∧ s.core.table.length = 2 ^ k := by
  induction h with
  | refl => exact ⟨11, le_refl 11, fresh_table_length S t0⟩
  | tail hpre hstep ih =>
      obtain ⟨k, hk, hlen⟩ := ih
      rcases EngineStep_length H hstep with he | he
      · exact ⟨k, hk, by rw [he, hlen]⟩
      · exact ⟨k + 1, by omega, by rw [he, hlen, Nat.pow_succ, Nat.mul_comm]⟩

/-! ### Claim C6 -/

/-- C6: `CheckResize` doubles the bucket array exactly when
`entry_count / bucket_count > 0.75` (as exact rationals,
`3·buckets < 4·entries`), relinking every entry to bucket
`hash &&& (2B - 1)` with no entry lost or duplicated; consequently the bucket
count is always a power of two (at least the initial 2048 = 2^11) and grows
monotonically across engine steps while the database is open. -/
theorem C6_resize_policy (H : Bytes → Nat) (S : Nat) (t0 : Int) :
    (∀ c : Core, 4 * c.entries ≤ 3 * c.table.length → CheckResize c = c) ∧
    (∀ c : Core, 3 * c.table.length < 4 * c.entries →
      (CheckResize c).table.length = 2 * c.table.length) ∧
    (∀ c : Core, 0 < c.table.length →
      (∀ i e, e ∈ (checkNewBasket c).table.getD i [] →
        e.hash &&& (2 * c.table.length - 1) = i) ∧
      (∀ e, tableCount e (checkNewBasket c).table = tableCount e c.table)) ∧
    (∀ s, Reachable H S t0 s → ∃ k, 11 ≤ k ∧ s.core.table.length = 2 ^ k) ∧
    (∀ s s' : HashMap, EngineStep H s s' →
      s.core.table.length ≤ s'.core.table.length) := by
  refine ⟨?_, ?_, ?_, Reachable_pow H S t0, fun s s' st => EngineStep_mono H st⟩
  · intro c h
    unfold CheckResize
    rw [if_neg (by omega)]
  · intro c h
    unfold CheckResize
    rw [if_pos h]
    exact checkNewBasket_length c
  · intro c hpos
    exact ⟨checkNewBasket_placed c hpos, fun e => checkNewBasket_count e c hpos⟩

/-- Witness for C6: no resize happens on a small state, and the fresh
database is reachable with a power-of-two bucket count. -/
theorem C6_resize_policy_witness :
    CheckResize (tickCore 0 0) = tickCore 0 0 ∧
    (∃ k, 11 ≤ k ∧ (freshMap 2 0).core.table.length = 2 ^ k) :=
  ⟨(C6_resize_policy (fun _ => 0) 2 0).1 (tickCore 0 0) (by decide),
   (C6_resize_policy (fun _ => 0) 2 0).2.2.2.1 (freshMap 2 0) Relation.ReflTransGen.refl⟩

end HydraKV